import Mathlib

/-! # Buffered reader and writer of `Library/C and C++/Templates/fast.cpp`

A shallow embedding of the two namespaces of the template, `fast_input` and
`fast_output`, followed by the properties proved about them.

Conventions of the embedding.

* `char` is the signed 8-bit type of the target platform (GCC on x86-64): a
  `char` value is an `Int` in `[-128, 127]`.  Raw bytes of the source and of
  the sink are `Byte = Fin 256`; `charOfByte` and `byteOfChar` are the two
  reinterpretations.
* `int64_t` arithmetic is integer arithmetic followed by `wrap64`.
* The global arrays are total maps `Nat → Int` from index to `char` value.
* `stdin` is the sequence of chunks that successive bulk reads will obtain,
  together with a counter of the bulk reads attempted; `stdout` is the list
  of the bulk writes received so far.
* The `while` loops of the reader need not terminate, so they take a fuel
  argument and return `none` when it runs out.
-/

/-- A raw byte of the input source or of the output sink. -/
abbrev Byte := Fin 256

/-- The value of a signed `char` that holds the raw byte `b`. -/
def charOfByte (b : Byte) : Int :=
  if b.val < 128 then (b.val : Int) else (b.val : Int) - 256

/-- The raw byte that a `char` of value `c` occupies in memory. -/
def byteOfChar (c : Int) : Byte := ⟨(c % 256).toNat, by omega⟩

/-- The conversion `(char)x` of an integer value to signed `char`. -/
def toChar (x : Int) : Int := (x + 128) % 256 - 128

/-- Reduction of an integer to the range of `int64_t` (two's complement). -/
def wrap64 (x : Int) : Int := (x + 2 ^ 63) % 2 ^ 64 - 2 ^ 63

/-- The constant `EOF` of `<cstdio>`. -/
def EOF : Int := -1

/-- The function `isspace` of `<cctype>` in the "C" locale: space, and the
five control characters `\t \n \v \f \r`.  On `EOF` and on the other negative
values of a signed `char` (the bytes `0x80` to `0xFF`) the answer is no. -/
def isspace (c : Int) : Bool := decide (c = 32) || (decide (9 ≤ c) && decide (c ≤ 13))

/-- The function `isdigit` of `<cctype>`: `'0'` to `'9'`, and nothing else
(not `EOF`, not a negative `char`). -/
def isdigit (c : Int) : Bool := decide (48 ≤ c) && decide (c ≤ 57)

/-- An input source: the chunks that the coming bulk reads will obtain, in
order (none left: every read obtains zero bytes), and the number of bulk
reads attempted so far. -/
structure Source where
  chunks : List (List Byte)
  attempts : Nat

/-- The call `fread(buffer, 1, count, source)`: obtains the next chunk, cut to
`count` bytes (the rest of a longer chunk stays for the next read), and counts
the attempt. -/
def fread (count : Nat) (s : Source) : List Byte × Source :=
  match s.chunks with
  | [] => ([], { s with attempts := s.attempts + 1 })
  | ch :: rest =>
    if ch.length ≤ count then (ch, { chunks := rest, attempts := s.attempts + 1 })
    else (ch.take count, { chunks := ch.drop count :: rest, attempts := s.attempts + 1 })

/-- The array `buf` after a bulk read stored the bytes `got` from index 0. -/
def store (buf : Nat → Int) (got : List Byte) : Nat → Int :=
  fun i => match got[i]? with
    | some b => charOfByte b
    | none => buf i

namespace fast_input

/-- The constant `buffer_size = 1 << 15`. -/
def buffer_size : Nat := 1 <<< 15

/-- The globals of `fast_input`, and the source they read from. -/
structure Reader where
  input_buffer : Nat → Int
  input_position : Nat
  input_length : Nat
  stdin : Source

/-- The state at program start (zero-initialised globals) over the source
whose whole content is `input`. -/
def Reader.fresh (input : List Byte) : Reader :=
  { input_buffer := fun _ => 0, input_position := 0, input_length := 0,
    stdin := { chunks := [input], attempts := 0 } }

/-- The function `read_char`. -/
def read_char (r : Reader) : Int × Reader :=
  if r.input_position = r.input_length then
    let got := (fread buffer_size r.stdin).1
    let r1 : Reader :=
      { input_buffer := store r.input_buffer got, input_position := 0,
        input_length := got.length, stdin := (fread buffer_size r.stdin).2 }
    if r1.input_length = 0 then (toChar EOF, r1)
    else (r1.input_buffer r1.input_position,
          { r1 with input_position := r1.input_position + 1 })
  else (r.input_buffer r.input_position,
        { r with input_position := r.input_position + 1 })

/-- The loop `while (isspace(c = read_char()));` of `read_string`: returns the
first character that is not a space. -/
def read_string_skip : Nat → Reader → Option (Int × Reader)
  | 0, _ => none
  | fuel + 1, r =>
    if isspace (read_char r).1 then read_string_skip fuel (read_char r).2
    else some (read_char r)

/-- The loop `do { s += c; } while (!isspace(c = read_char()) && c != EOF);`
of `read_string`. -/
def read_string_take : Nat → List Int → Int → Reader → Option (List Int × Reader)
  | 0, _, _, _ => none
  | fuel + 1, s, c, r =>
    if !isspace (read_char r).1 && (read_char r).1 != EOF then
      read_string_take fuel (s ++ [c]) (read_char r).1 (read_char r).2
    else some (s ++ [c], (read_char r).2)

/-- The function `read_string`; the string is the list of its `char`s. -/
def read_string (fuel : Nat) (s : List Int) (r : Reader) : Option (List Int × Reader) :=
  match read_string_skip fuel r with
  | none => none
  | some (c, r1) => read_string_take fuel s c r1

/-- The first loop of `read_number`,
`while (!isdigit(c = read_char())) { if (c == '-') sign = -1; }`:
returns the first digit character and the sign. -/
def read_number_skip : Nat → Int → Reader → Option (Int × Int × Reader)
  | 0, _, _ => none
  | fuel + 1, sign, r =>
    if !isdigit (read_char r).1 then
      read_number_skip fuel (if (read_char r).1 = 45 then -1 else sign) (read_char r).2
    else some ((read_char r).1, sign, (read_char r).2)

/-- The second loop of `read_number`,
`while (isdigit(c = read_char())) n = 10 * n + (c - '0');`, at `T = i64`. -/
def read_number_digits : Nat → Int → Reader → Option (Int × Reader)
  | 0, _, _ => none
  | fuel + 1, n, r =>
    if isdigit (read_char r).1 then
      read_number_digits fuel (wrap64 (wrap64 (10 * n) + ((read_char r).1 - 48)))
        (read_char r).2
    else some (n, (read_char r).2)

/-- The function `read_number` at `T = i64`. -/
def read_number (fuel : Nat) (r : Reader) : Option (Int × Reader) :=
  match read_number_skip fuel 1 r with
  | none => none
  | some (c, sign, r1) =>
    match read_number_digits fuel (wrap64 (c - 48)) r1 with
    | none => none
    | some (n, r2) => some (wrap64 (n * sign), r2)

end fast_input

namespace fast_output

/-- The constant `buffer_size = 1 << 15`. -/
def buffer_size : Nat := 1 <<< 15

/-- The globals of `fast_output`, and the sink they write to. -/
structure Writer where
  output_buffer : Nat → Int
  number_buffer : Nat → Int
  output_position : Nat
  stdout : List (List Byte)

/-- The state at program start (zero-initialised globals, nothing written). -/
def Writer.fresh : Writer :=
  { output_buffer := fun _ => 0, number_buffer := fun _ => 0,
    output_position := 0, stdout := [] }

/-- The function `flush`: one `fwrite` of the first `output_position` bytes. -/
def flush (w : Writer) : Writer :=
  { w with
    stdout := w.stdout ++
      [(List.range w.output_position).map (fun i => byteOfChar (w.output_buffer i))],
    output_position := 0 }

/-- The function `print_char`. -/
def print_char (c : Int) (w : Writer) : Writer :=
  let w1 := if w.output_position = buffer_size then flush w else w
  { w1 with
    output_buffer := Function.update w1.output_buffer w1.output_position c,
    output_position := w1.output_position + 1 }

/-- The function `print_string`; the string is the list of its `char`s. -/
def print_string (s : List Int) (w : Writer) : Writer :=
  s.foldl (fun acc c => print_char c acc) w

/-- The loop `for (; n >= 10; n /= 10) number_buffer[length++] = (char)('0' + (n % 10));`
of `print_number`: returns the final `n`, the state and `length`. -/
def print_number_peel (n : Int) (w : Writer) (length : Nat) : Int × Writer × Nat :=
  if 10 ≤ n then
    print_number_peel (Int.tdiv n 10)
      { w with number_buffer :=
          Function.update w.number_buffer length (toChar (48 + Int.tmod n 10)) }
      (length + 1)
  else (n, w, length)
termination_by n.toNat
decreasing_by
  have h : Int.tdiv n 10 = n / 10 := Int.tdiv_eq_ediv (by omega) (by omega)
  rw [h]
  omega

/-- The loop `for (int i = length - 1; i >= 0; --i) print_char(number_buffer[i]);`
of `print_number`, with `k = i + 1`. -/
def print_number_emit : Nat → Writer → Writer
  | 0, w => w
  | k + 1, w => print_number_emit k (print_char (w.number_buffer k) w)

/-- The function `print_number` at `T = i64`; `after` defaults to `'\0'`. -/
def print_number (n : Int) (after : Int) (w : Writer) : Writer :=
  let w1 := if n < 0 then print_char 45 w else w
  let n1 := if n < 0 then wrap64 (n * -1) else n
  let p := print_number_peel n1 w1 0
  let w2 := print_char (toChar (48 + p.1)) p.2.1
  let w3 := print_number_emit p.2.2 w2
  if after ≠ 0 then print_char after w3 else w3

end fast_output

/-! ## Vocabulary of the statements

The definitions below are not part of the program: they name what the
theorems speak about (the bytes still to be read, the bytes emitted so far,
decimal numerals, classes of bytes). -/

/-- The part `buf[pos], ..., buf[pos + n - 1]` of an array. -/
def window (buf : Nat → Int) (pos n : Nat) : List Int :=
  (List.range n).map (fun i => buf (pos + i))

/-- A source without gaps: either no coming bulk read obtains zero bytes before
the chunks run out, or every one of them does. -/
def SrcOk (chunks : List (List Byte)) : Prop :=
  (∀ ch ∈ chunks, ch ≠ []) ∨ (∀ ch ∈ chunks, ch = [])

namespace fast_output

/-- The bytes held in the output buffer, oldest first. -/
def Writer.buffered (w : Writer) : List Byte :=
  (List.range w.output_position).map (fun i => byteOfChar (w.output_buffer i))

/-- Every byte accepted so far: what the sink received, then what is buffered. -/
def Writer.emitted (w : Writer) : List Byte := w.stdout.flatten ++ w.buffered

/-- The canonical decimal digits of `m`, most significant first: no leading
zero, and the single digit `0` for `m = 0`. -/
def decimal (m : Nat) : List Nat :=
  if m = 0 then [0] else (Nat.digits 10 m).reverse

/-- The characters that `print_number n after` is to output: a `'-'` when
`n < 0`, the decimal digits of `|n|`, and `after` unless it is `'\0'`. -/
def number_chars (n : Int) (after : Int) : List Int :=
  (if n < 0 then [45] else []) ++ (decimal n.natAbs).map (fun (d : Nat) => 48 + (d : Int))
    ++ (if after ≠ 0 then [after] else [])

/-- The value of `length` when the first loop of `print_number n` ends: the
number of digits stored in `number_buffer`. -/
def scratch_count (n : Int) (w : Writer) : Nat :=
  (print_number_peel (if n < 0 then wrap64 (n * -1) else n)
    (if n < 0 then print_char 45 w else w) 0).2.2

/-- The index of `output_buffer` that `print_char` stores to (after the flush
of a full buffer). -/
def print_char_index (w : Writer) : Nat :=
  if w.output_position = buffer_size then 0 else w.output_position

/-- The states of the writer that a program can reach from the start by calls
of `flush`, `print_char`, `print_string` and `print_number`. -/
inductive Writer.Reachable : Writer → Prop
  | start : Writer.Reachable Writer.fresh
  | after_flush (w : Writer) : Writer.Reachable w → Writer.Reachable (flush w)
  | after_print_char (c : Int) (w : Writer) :
      Writer.Reachable w → Writer.Reachable (print_char c w)
  | after_print_string (s : List Int) (w : Writer) :
      Writer.Reachable w → Writer.Reachable (print_string s w)
  | after_print_number (n after : Int) (w : Writer) :
      Writer.Reachable w → Writer.Reachable (print_number n after w)

/-- The bound `output_position ≤ buffer_size` of the writer. -/
def Writer.InBounds (w : Writer) : Prop := w.output_position ≤ buffer_size

end fast_output

namespace fast_input

/-- The characters of the buffer not read yet. -/
def Reader.unread (r : Reader) : List Int :=
  window r.input_buffer r.input_position (r.input_length - r.input_position)

/-- Everything still to be read: the unread part of the buffer, then the rest
of the source, as `char`s. -/
def Reader.pending (r : Reader) : List Int :=
  r.unread ++ r.stdin.chunks.flatten.map charOfByte

/-- A state the reader can be in over a source without gaps. -/
def Reader.Ok (r : Reader) : Prop :=
  r.input_position ≤ r.input_length ∧ SrcOk r.stdin.chunks

/-- One step of the accumulation of `read_number`, in `int64_t` arithmetic. -/
def accumulate (n c : Int) : Int := wrap64 (wrap64 (10 * n) + (c - 48))

/-- The byte is an ASCII digit. -/
def isDigitByte (b : Byte) : Bool := decide (48 ≤ b.val) && decide (b.val ≤ 57)

/-- The value of a run of ASCII digits read as a decimal numeral. -/
def decimal_value (D : List Byte) : Nat :=
  D.foldl (fun v b => 10 * v + (b.val - 48)) 0

/-- One step of the accumulation of `read_number`, in exact arithmetic. -/
def accumulate_exact (n c : Int) : Int := 10 * n + (c - 48)

/-- The state after `k` successive calls of `read_char`. -/
def read_char_times : Nat → Reader → Reader
  | 0, r => r
  | k + 1, r => read_char_times k (read_char r).2

/-- The byte is one of the six that `isspace` accepts: space, `\t`, `\n`,
`\v`, `\f`, `\r`. -/
def isSpaceByte (b : Byte) : Bool :=
  decide (b.val = 32) || (decide (9 ≤ b.val) && decide (b.val ≤ 13))

/-- The state at program start (zero-initialised globals) over a source that
delivers the given chunks to the successive bulk reads. -/
def Reader.start (chunks : List (List Byte)) : Reader :=
  { input_buffer := fun _ => 0, input_position := 0, input_length := 0,
    stdin := { chunks := chunks, attempts := 0 } }

/-- The index of `input_buffer` that `read_char` reads (after the refill of a
used-up buffer), or `none` when it returns `EOF` without reading the buffer. -/
def read_char_index (r : Reader) : Option Nat :=
  if r.input_position = r.input_length then
    (if (fread buffer_size r.stdin).1.length = 0 then none else some 0)
  else some r.input_position

/-- The states of the reader that a program can reach from the start, over any
source, by calls of `read_char`, `read_string` and `read_number` that return. -/
inductive Reader.Reachable : Reader → Prop
  | start (chunks : List (List Byte)) : Reader.Reachable (Reader.start chunks)
  | after_read_char (r : Reader) : Reader.Reachable r → Reader.Reachable (read_char r).2
  | after_read_string (fuel : Nat) (s t : List Int) (r r1 : Reader) :
      Reader.Reachable r → read_string fuel s r = some (t, r1) → Reader.Reachable r1
  | after_read_number (fuel : Nat) (n : Int) (r r1 : Reader) :
      Reader.Reachable r → read_number fuel r = some (n, r1) → Reader.Reachable r1

/-- The bounds `input_position ≤ input_length ≤ buffer_size` of the reader. -/
def Reader.InBounds (r : Reader) : Prop :=
  r.input_position ≤ r.input_length ∧ r.input_length ≤ buffer_size

end fast_input

/-! ## Properties of the writer -/

theorem byteOfChar_charOfByte (b : Byte) : byteOfChar (charOfByte b) = b := by
  apply Fin.ext
  have hb := b.isLt
  unfold byteOfChar charOfByte
  simp only
  split <;> omega

namespace fast_output

theorem flush_stdout (w : Writer) : (flush w).stdout = w.stdout ++ [w.buffered] := rfl

theorem flush_position (w : Writer) : (flush w).output_position = 0 := rfl

theorem flush_stdout_join (w : Writer) : (flush w).stdout.flatten = w.emitted := by
  simp [flush_stdout, Writer.emitted]

theorem buffered_update (buf : Nat → Int) (p : Nat) (c : Int) :
    (List.range (p + 1)).map (fun i => byteOfChar (Function.update buf p c i))
      = (List.range p).map (fun i => byteOfChar (buf i)) ++ [byteOfChar c] := by
  rw [List.range_succ, List.map_append]
  congr 1
  · apply List.map_congr_left
    intro i hi
    have : i ≠ p := by
      have := List.mem_range.mp hi
      omega
    simp [Function.update_noteq this]
  · simp

theorem print_char_of_not_full (c : Int) (w : Writer)
    (h : w.output_position ≠ buffer_size) :
    (print_char c w).stdout = w.stdout ∧
    (print_char c w).output_position = w.output_position + 1 ∧
    (print_char c w).buffered = w.buffered ++ [byteOfChar c] := by
  refine ⟨by simp [print_char, h], by simp [print_char, h], ?_⟩
  simp only [print_char, if_neg h, Writer.buffered]
  exact buffered_update _ _ _

theorem print_char_of_full (c : Int) (w : Writer)
    (h : w.output_position = buffer_size) :
    (print_char c w).stdout = w.stdout ++ [w.buffered] ∧
    (print_char c w).output_position = 1 ∧
    (print_char c w).output_buffer 0 = c ∧
    (print_char c w).buffered = [byteOfChar c] := by
  refine ⟨by simp [print_char, h, flush, Writer.buffered],
    by simp [print_char, h, flush], by simp [print_char, h, flush], ?_⟩
  simp [print_char, h, flush, Writer.buffered, List.range_succ]

theorem print_char_number_buffer (c : Int) (w : Writer) :
    (print_char c w).number_buffer = w.number_buffer := by
  unfold print_char
  split <;> rfl

theorem emitted_print_char (c : Int) (w : Writer) :
    (print_char c w).emitted = w.emitted ++ [byteOfChar c] := by
  by_cases h : w.output_position = buffer_size
  · obtain ⟨h1, _, _, h4⟩ := print_char_of_full c w h
    simp [Writer.emitted, h1, h4]
  · obtain ⟨h1, _, h3⟩ := print_char_of_not_full c w h
    simp [Writer.emitted, h1, h3]

theorem print_string_nil (w : Writer) : print_string [] w = w := rfl

theorem print_string_cons (c : Int) (s : List Int) (w : Writer) :
    print_string (c :: s) w = print_string s (print_char c w) := rfl

theorem print_string_append (s t : List Int) (w : Writer) :
    print_string (s ++ t) w = print_string t (print_string s w) := by
  simp [print_string, List.foldl_append]

theorem emitted_print_string (s : List Int) (w : Writer) :
    (print_string s w).emitted = w.emitted ++ s.map byteOfChar := by
  induction s generalizing w with
  | nil => simp [print_string_nil]
  | cons c s ih => simp [print_string_cons, ih, emitted_print_char]

theorem print_string_within (s : List Int) (w : Writer)
    (h : w.output_position + s.length ≤ buffer_size) :
    (print_string s w).stdout = w.stdout ∧
    (print_string s w).output_position = w.output_position + s.length ∧
    (print_string s w).buffered = w.buffered ++ s.map byteOfChar := by
  induction s generalizing w with
  | nil => simp [print_string_nil]
  | cons c s ih =>
    simp only [List.length_cons] at h
    have hne : w.output_position ≠ buffer_size := by omega
    obtain ⟨h1, h2, h3⟩ := print_char_of_not_full c w hne
    obtain ⟨i1, i2, i3⟩ := ih (print_char c w) (by omega)
    rw [print_string_cons]
    refine ⟨by rw [i1, h1], by rw [i2, h2, List.length_cons]; omega, ?_⟩
    rw [i3, h3]
    simp

/-- C2: written with `print_string` and flushed, every byte sequence reaches
the sink unchanged, whatever its length. -/
theorem print_string_flush_exact (S : List Byte) (w : Writer)
    (hpos : w.output_position = 0) (hsink : w.stdout = []) :
    (flush (print_string (S.map charOfByte) w)).stdout.flatten = S := by
  rw [flush_stdout_join, emitted_print_string]
  simp [Writer.emitted, Writer.buffered, hpos, hsink, Function.comp_def,
    byteOfChar_charOfByte]

theorem print_string_flush_exact_witness :
    Writer.fresh.output_position = 0 ∧ Writer.fresh.stdout = [] ∧
    (flush (print_string (([104, 105, 255] : List Byte).map charOfByte)
      Writer.fresh)).stdout.flatten = [104, 105, 255] :=
  ⟨rfl, rfl, print_string_flush_exact [104, 105, 255] Writer.fresh rfl rfl⟩

/-- C6: from an empty buffer, `buffer_size` calls of `print_char` write nothing
to the sink; the next call makes exactly one bulk write, of the first
`buffer_size` bytes in order, and leaves the new byte alone in the buffer, at
index 0 with `output_position = 1`. -/
theorem print_char_flushes_once_when_full (cs : List Int) (c : Int) (w : Writer)
    (hpos : w.output_position = 0) (hlen : cs.length = buffer_size) :
    (∀ k, (print_string (cs.take k) w).stdout = w.stdout) ∧
    (print_char c (print_string cs w)).stdout = w.stdout ++ [cs.map byteOfChar] ∧
    (print_char c (print_string cs w)).output_position = 1 ∧
    (print_char c (print_string cs w)).output_buffer 0 = c ∧
    (print_char c (print_string cs w)).buffered = [byteOfChar c] := by
  have hall : ∀ k, w.output_position + (cs.take k).length ≤ buffer_size := by
    intro k
    rw [hpos, List.length_take]
    omega
  obtain ⟨h1, h2, h3⟩ := print_string_within cs w (by omega)
  have hfull : (print_string cs w).output_position = buffer_size := by omega
  obtain ⟨f1, f2, f3, f4⟩ := print_char_of_full c (print_string cs w) hfull
  refine ⟨fun k => (print_string_within _ w (hall k)).1, ?_, f2, f3, f4⟩
  rw [f1, h1, h3]
  simp [Writer.buffered, hpos]

theorem print_char_flushes_once_when_full_witness :
    Writer.fresh.output_position = 0 ∧
    (List.replicate buffer_size (65 : Int)).length = buffer_size ∧
    ((∀ k, (print_string ((List.replicate buffer_size (65 : Int)).take k) Writer.fresh).stdout
        = Writer.fresh.stdout) ∧
      (print_char 66 (print_string (List.replicate buffer_size 65) Writer.fresh)).stdout
        = Writer.fresh.stdout ++ [(List.replicate buffer_size (65 : Int)).map byteOfChar] ∧
      (print_char 66 (print_string (List.replicate buffer_size 65) Writer.fresh)).output_position
        = 1 ∧
      (print_char 66 (print_string (List.replicate buffer_size 65) Writer.fresh)).output_buffer 0
        = 66 ∧
      (print_char 66 (print_string (List.replicate buffer_size 65) Writer.fresh)).buffered
        = [byteOfChar 66]) :=
  ⟨rfl, List.length_replicate _ _,
    print_char_flushes_once_when_full (List.replicate buffer_size 65) 66 Writer.fresh rfl
      (List.length_replicate _ _)⟩

theorem print_string_number_buffer (s : List Int) (w : Writer) :
    (print_string s w).number_buffer = w.number_buffer := by
  induction s generalizing w with
  | nil => rfl
  | cons c s ih => rw [print_string_cons, ih, print_char_number_buffer]

theorem print_char_with_number_buffer (c : Int) (w : Writer) (nb : Nat → Int) :
    print_char c { w with number_buffer := nb }
      = { print_char c w with number_buffer := nb } := by
  unfold print_char
  by_cases h : w.output_position = buffer_size
  · simp [h, flush]
  · simp [h]

theorem print_string_with_number_buffer (s : List Int) (w : Writer) (nb : Nat → Int) :
    print_string s { w with number_buffer := nb }
      = { print_string s w with number_buffer := nb } := by
  induction s generalizing w with
  | nil => rfl
  | cons c s ih => rw [print_string_cons, print_string_cons, print_char_with_number_buffer, ih]

theorem print_number_emit_eq (k : Nat) (w : Writer) :
    print_number_emit k w = print_string ((List.range k).reverse.map w.number_buffer) w := by
  induction k generalizing w with
  | zero => rfl
  | succ k ih =>
    rw [print_number_emit, ih, print_char_number_buffer, List.range_succ]
    simp [print_string_cons]

theorem toChar_digit (d : Int) (h0 : 0 ≤ d) (h9 : d ≤ 9) : toChar (48 + d) = 48 + d := by
  unfold toChar
  omega

/-- The peeling loop on a positive `m`: it ends with the leading digit of `m` and
has appended the other digits, least significant first, to the scratch array. -/
theorem print_number_peel_spec (m : Nat) (hm : 0 < m) (w : Writer) (len : Nat) :
    ∃ (nb : Nat → Int) (low : List Nat) (lead : Nat),
      Nat.digits 10 m = low ++ [lead] ∧
      print_number_peel (m : Int) w len
        = ((lead : Int), { w with number_buffer := nb }, len + low.length) ∧
      (∀ i, i < len → nb i = w.number_buffer i) ∧
      (∀ i (h : i < low.length), nb (len + i) = 48 + ((low.get ⟨i, h⟩ : Nat) : Int)) := by
  induction m using Nat.strong_induction_on generalizing w len with
  | _ m ih =>
    by_cases h10 : m < 10
    · refine ⟨w.number_buffer, [], m, ?_, ?_, fun _ _ => rfl, ?_⟩
      · rw [Nat.digits_def' (by norm_num) hm, Nat.mod_eq_of_lt h10]
        have : m / 10 = 0 := by omega
        simp [this]
      · rw [print_number_peel, if_neg (by omega)]
        rfl
      · intro i h
        simp at h
    · have hq : 0 < m / 10 := by omega
      have hdiv : Int.tdiv (m : Int) 10 = ((m / 10 : Nat) : Int) := by
        rw [Int.tdiv_eq_ediv (by omega) (by omega)]
        norm_cast
      have hmod : Int.tmod (m : Int) 10 = ((m % 10 : Nat) : Int) := by
        rw [Int.tmod_eq_emod (by omega) (by omega)]
        norm_cast
      obtain ⟨nb, low, lead, hd, hp, hlo, hhi⟩ :=
        ih (m / 10) (by omega) hq
          { w with number_buffer :=
              Function.update w.number_buffer len (toChar (48 + Int.tmod (m : Int) 10)) }
          (len + 1)
      refine ⟨nb, (m % 10) :: low, lead, ?_, ?_, ?_, ?_⟩
      · rw [Nat.digits_def' (by norm_num) hm, hd]
        rfl
      · rw [print_number_peel, if_pos (by omega), hdiv, hp]
        simp only [List.length_cons]
        congr 2
        omega
      · intro i hi
        rw [hlo i (by omega)]
        exact Function.update_noteq (by omega) _ _
      · intro i h
        cases i with
        | zero =>
          show nb len = 48 + ((m % 10 : Nat) : Int)
          rw [hlo len (by omega)]
          simp only [Function.update_same]
          rw [hmod]
          exact toChar_digit _ (by omega) (by omega)
        | succ j =>
          have hj : j < low.length := by simpa using h
          have := hhi j hj
          rw [show len + (j + 1) = len + 1 + j by omega, this]
          rfl

theorem scratch_chars (nb : Nat → Int) (low : List Nat)
    (h : ∀ i (h : i < low.length), nb (0 + i) = 48 + ((low.get ⟨i, h⟩ : Nat) : Int)) :
    (List.range low.length).map nb = low.map (fun (d : Nat) => 48 + (d : Int)) := by
  apply List.ext_get
  · simp
  · intro i h1 h2
    simp only [List.length_map, List.length_range] at h1
    have := h i h1
    simp only [Nat.zero_add] at this
    simp [this]

/-- The digits part of `print_number` on a non-negative value. -/
theorem print_number_digits_eq (m : Nat) (w : Writer) :
    ∃ nb : Nat → Int,
      print_number_emit (print_number_peel (m : Int) w 0).2.2
          (print_char (toChar (48 + (print_number_peel (m : Int) w 0).1))
            (print_number_peel (m : Int) w 0).2.1)
        = { print_string ((decimal m).map (fun (d : Nat) => 48 + (d : Int))) w with
            number_buffer := nb } := by
  by_cases hm : m = 0
  · subst hm
    refine ⟨w.number_buffer, ?_⟩
    rw [print_number_peel, if_neg (by omega)]
    have e := print_char_number_buffer 48 w
    simp only [print_number_emit, decimal, if_true, List.map_cons, List.map_nil,
      print_string_cons, print_string_nil]
    rw [← e]
    rfl
  · obtain ⟨nb, low, lead, hd, hp, _, hhi⟩ :=
      print_number_peel_spec m (Nat.pos_of_ne_zero hm) w 0
    refine ⟨nb, ?_⟩
    have hlead : lead < 10 := by
      have : lead ∈ Nat.digits 10 m := by simp [hd]
      exact Nat.digits_lt_base (by norm_num) this
    rw [hp]
    simp only [Nat.zero_add]
    rw [print_number_emit_eq, print_char_number_buffer, List.map_reverse,
      scratch_chars nb low hhi, toChar_digit _ (by omega) (by omega), print_char_with_number_buffer,
      print_string_with_number_buffer, ← print_string_cons]
    simp [decimal, hm, hd]

theorem wrap64_neg_of_neg (n : Int) (h0 : n < 0) (hlo : -(2 ^ 63) < n) :
    wrap64 (n * -1) = (n.natAbs : Int) := by
  unfold wrap64
  omega

theorem print_number_exists (n after : Int) (w : Writer)
    (hlo : -(2 ^ 63) < n) :
    ∃ nb : Nat → Int,
      print_number n after w
        = { print_string (number_chars n after) w with number_buffer := nb } := by
  unfold print_number number_chars
  by_cases hneg : n < 0
  · simp only [if_pos hneg]
    rw [wrap64_neg_of_neg n hneg hlo]
    obtain ⟨nb, h⟩ := print_number_digits_eq n.natAbs (print_char 45 w)
    refine ⟨nb, ?_⟩
    simp only [h]
    by_cases ha : after = 0
    · simp [ha, print_string_append, print_string_cons, print_string_nil]
    · simp [ha, print_string_append, print_string_cons, print_string_nil,
        print_char_with_number_buffer]
  · simp only [if_neg hneg]
    have hn : n = (n.natAbs : Int) := by omega
    obtain ⟨nb, h⟩ := print_number_digits_eq n.natAbs w
    rw [← hn] at h
    refine ⟨nb, ?_⟩
    simp only [h]
    by_cases ha : after = 0
    · simp [ha, print_string_append, print_string_nil]
    · simp [ha, print_string_append, print_string_cons, print_string_nil,
        print_char_with_number_buffer]

/-- C5: for every `n` of `int64_t` other than the minimum, `print_number n after`
acts on the output buffer and the sink exactly as `print_char` called on, in
order, a `'-'` iff `n < 0`, the canonical decimal digits of `|n|`, and `after`
iff it is not `'\0'`; nothing but the scratch array differs. -/
theorem print_number_prints_number_chars (n after : Int) (w : Writer)
    (hlo : -(2 ^ 63) < n) (_hhi : n < 2 ^ 63) :
    print_number n after w
      = { print_string (number_chars n after) w with
          number_buffer := (print_number n after w).number_buffer } := by
  obtain ⟨nb, h⟩ := print_number_exists n after w hlo
  have hnb : (print_number n after w).number_buffer = nb := by rw [h]
  rw [hnb]
  exact h

theorem print_number_prints_number_chars_witness :
    (-(2 ^ 63) < (-9223372036854775807 : Int)) ∧ ((-9223372036854775807 : Int) < 2 ^ 63) ∧
    print_number (-9223372036854775807) 10 Writer.fresh
      = { print_string (number_chars (-9223372036854775807) 10) Writer.fresh with
          number_buffer :=
            (print_number (-9223372036854775807) 10 Writer.fresh).number_buffer } :=
  ⟨by decide, by decide,
    print_number_prints_number_chars (-9223372036854775807) 10 Writer.fresh
      (by decide) (by decide)⟩

/-! ### Flushing twice, and the scratch array -/

/-- C13: `flush` makes one bulk write, of the first `output_position` bytes of
the buffer, and sets `output_position` to 0; on an empty buffer that write
carries no byte; and a second `flush` right after the first leaves the bytes
in the sink and the state of the writer as they were. -/
theorem flush_writes_buffered_and_is_idempotent (w : Writer) :
    (flush w).stdout = w.stdout ++
      [(List.range w.output_position).map (fun i => byteOfChar (w.output_buffer i))] ∧
    (flush w).output_position = 0 ∧
    (flush w).output_buffer = w.output_buffer ∧
    (w.output_position = 0 →
      (flush w).stdout = w.stdout ++ [[]] ∧
      (flush w).stdout.flatten = w.stdout.flatten ∧ (flush w).output_position = 0) ∧
    (flush (flush w)).stdout.flatten = (flush w).stdout.flatten ∧
    (flush (flush w)).output_position = (flush w).output_position ∧
    (flush (flush w)).output_buffer = (flush w).output_buffer ∧
    (flush (flush w)).number_buffer = (flush w).number_buffer := by
  refine ⟨rfl, rfl, rfl, ?_, ?_, rfl, rfl, rfl⟩
  · intro h
    have hb : w.buffered = [] := by simp [Writer.buffered, h]
    refine ⟨by rw [flush_stdout, hb], ?_, rfl⟩
    rw [flush_stdout, hb]
    simp
  · have hb : (flush w).buffered = [] := by simp [Writer.buffered, flush]
    rw [flush_stdout (flush w), hb]
    simp

/-- The peeling loop, for every `n`: it leaves the output buffer, its position
and the sink alone, never lowers `length`, and leaves the scratch array alone
from the final `length` upwards. -/
theorem print_number_peel_frame (k : Nat) :
    ∀ (n : Int) (w : Writer) (len : Nat), n.toNat = k →
      (print_number_peel n w len).2.1.output_buffer = w.output_buffer ∧
      (print_number_peel n w len).2.1.output_position = w.output_position ∧
      (print_number_peel n w len).2.1.stdout = w.stdout ∧
      len ≤ (print_number_peel n w len).2.2 ∧
      (∀ i, (print_number_peel n w len).2.2 ≤ i →
        (print_number_peel n w len).2.1.number_buffer i = w.number_buffer i) := by
  induction k using Nat.strong_induction_on with
  | _ k ih =>
    intro n w len hk
    by_cases h10 : 10 ≤ n
    · have hdiv : Int.tdiv n 10 = n / 10 := Int.tdiv_eq_ediv (by omega) (by omega)
      obtain ⟨i1, i2, i3, i4, i5⟩ := ih (Int.tdiv n 10).toNat (by rw [hdiv]; omega)
        (Int.tdiv n 10)
        { w with number_buffer :=
            Function.update w.number_buffer len (toChar (48 + Int.tmod n 10)) }
        (len + 1) rfl
      rw [print_number_peel, if_pos h10]
      refine ⟨i1, i2, i3, by omega, ?_⟩
      intro i hi
      rw [i5 i hi]
      exact Function.update_noteq (by omega) _ _
    · rw [print_number_peel, if_neg h10]
      exact ⟨rfl, rfl, rfl, Nat.le_refl _, fun _ _ => rfl⟩

theorem print_number_emit_number_buffer (k : Nat) (w : Writer) :
    (print_number_emit k w).number_buffer = w.number_buffer := by
  rw [print_number_emit_eq, print_string_number_buffer]

theorem digits_length_le_19 (m : Nat) (hm : m < 2 ^ 63) : (Nat.digits 10 m).length ≤ 19 := by
  by_cases h0 : m = 0
  · subst h0
    simp
  · have h := Nat.base_pow_length_digits_le 10 m (by norm_num) h0
    by_contra hgt
    have h20 : 20 ≤ (Nat.digits 10 m).length := by omega
    have hp : 10 ^ 20 ≤ 10 ^ (Nat.digits 10 m).length :=
      Nat.pow_le_pow_right (by norm_num) h20
    have : (10 : Nat) ^ 20 ≤ 10 * m := Nat.le_trans hp h
    norm_num at this hm
    omega

theorem scratch_count_natAbs (n : Int) (w : Writer) (hlo : -(2 ^ 63) < n) :
    ∃ w1, scratch_count n w = (print_number_peel (n.natAbs : Int) w1 0).2.2 := by
  unfold scratch_count
  by_cases hneg : n < 0
  · simp only [if_pos hneg]
    rw [wrap64_neg_of_neg n hneg hlo]
    exact ⟨_, rfl⟩
  · simp only [if_neg hneg]
    have hn : n = (n.natAbs : Int) := by omega
    rw [← hn]
    exact ⟨_, rfl⟩

/-- C20: for every `n` of `int64_t` other than the minimum, the first loop of
`print_number` ends (it is a total function) having stored one digit less than
`|n|` has, at most 18; so the indices it wrote, and those the second loop
reads, all below that count, are below 100, and the scratch array is
untouched from that count upwards. -/
theorem print_number_scratch_bound (n after : Int) (w : Writer)
    (hlo : -(2 ^ 63) < n) (hhi : n < 2 ^ 63) :
    scratch_count n w + 1 = (decimal n.natAbs).length ∧
    scratch_count n w ≤ 18 ∧
    (∀ i, i < scratch_count n w → i < 100) ∧
    (∀ i, scratch_count n w ≤ i →
      (print_number n after w).number_buffer i = w.number_buffer i) := by
  have hcount : scratch_count n w + 1 = (decimal n.natAbs).length := by
    obtain ⟨w1, hw1⟩ := scratch_count_natAbs n w hlo
    rw [hw1]
    by_cases hm : n.natAbs = 0
    · rw [hm, print_number_peel, if_neg (by decide)]
      simp [decimal]
    · obtain ⟨nb, low, lead, hd, hp, _, _⟩ :=
        print_number_peel_spec n.natAbs (Nat.pos_of_ne_zero hm) w1 0
      rw [hp]
      simp [decimal, hm, hd]
  have hlen : (decimal n.natAbs).length ≤ 19 := by
    unfold decimal
    split
    · simp
    · rw [List.length_reverse]
      exact digits_length_le_19 _ (by omega)
  have h18 : scratch_count n w ≤ 18 := by omega
  refine ⟨hcount, h18, fun i hi => by omega, ?_⟩
  intro i hi
  have hframe := print_number_peel_frame _ (if n < 0 then wrap64 (n * -1) else n)
    (if n < 0 then print_char 45 w else w) 0 rfl
  have h5 := hframe.2.2.2.2 i hi
  have hw1 : (if n < 0 then print_char 45 w else w).number_buffer = w.number_buffer := by
    split
    · exact print_char_number_buffer _ _
    · rfl
  rw [hw1] at h5
  unfold print_number
  simp only
  split
  · rw [print_char_number_buffer, print_number_emit_number_buffer,
      print_char_number_buffer]
    exact h5
  · rw [print_number_emit_number_buffer, print_char_number_buffer]
    exact h5

theorem print_number_scratch_bound_witness :
    (-(2 ^ 63) < (9223372036854775807 : Int)) ∧ ((9223372036854775807 : Int) < 2 ^ 63) ∧
    scratch_count 9223372036854775807 Writer.fresh + 1
      = (decimal (9223372036854775807 : Int).natAbs).length ∧
    scratch_count 9223372036854775807 Writer.fresh ≤ 18 :=
  ⟨by decide, by decide,
    (print_number_scratch_bound 9223372036854775807 0 Writer.fresh (by decide) (by decide)).1,
    (print_number_scratch_bound 9223372036854775807 0 Writer.fresh (by decide) (by decide)).2.1⟩

/-! ### The bounds of the output buffer -/

/-- The index named by `print_char_index` is the one `print_char` stores to. -/
theorem print_char_writes_index (c : Int) (w : Writer) :
    (print_char c w).output_buffer (print_char_index w) = c ∧
    (print_char c w).output_position = print_char_index w + 1 ∧
    (∀ j, j ≠ print_char_index w → (print_char c w).output_buffer j = w.output_buffer j) := by
  by_cases h : w.output_position = buffer_size
  · have hidx : print_char_index w = 0 := by
      unfold print_char_index
      rw [if_pos h]
    rw [hidx]
    obtain ⟨_, f2, f3, _⟩ := print_char_of_full c w h
    refine ⟨f3, f2, fun j hj => ?_⟩
    simp [print_char, h, flush, Function.update_noteq hj]
  · have e : print_char c w = { w with
        output_buffer := Function.update w.output_buffer w.output_position c,
        output_position := w.output_position + 1 } := by
      simp [print_char, h]
    have hidx : print_char_index w = w.output_position := by
      unfold print_char_index
      rw [if_neg h]
    rw [e, hidx]
    exact ⟨Function.update_same _ _ _, rfl, fun j hj => Function.update_noteq hj _ _⟩

theorem print_char_in_bounds (c : Int) (w : Writer) (h : w.InBounds) :
    (print_char c w).InBounds := by
  unfold Writer.InBounds at h ⊢
  by_cases hf : w.output_position = buffer_size
  · rw [(print_char_of_full c w hf).2.1]
    decide
  · rw [(print_char_of_not_full c w hf).2.1]
    omega

theorem print_char_index_lt (w : Writer) (h : w.InBounds) :
    print_char_index w < buffer_size := by
  unfold Writer.InBounds at h
  unfold print_char_index
  split
  · decide
  · omega

theorem print_string_in_bounds (s : List Int) (w : Writer) (h : w.InBounds) :
    (print_string s w).InBounds := by
  induction s generalizing w with
  | nil => exact h
  | cons c s ih =>
    rw [print_string_cons]
    exact ih _ (print_char_in_bounds c w h)

theorem print_number_emit_in_bounds (k : Nat) (w : Writer) (h : w.InBounds) :
    (print_number_emit k w).InBounds := by
  rw [print_number_emit_eq]
  exact print_string_in_bounds _ w h

theorem print_number_in_bounds (n after : Int) (w : Writer) (h : w.InBounds) :
    (print_number n after w).InBounds := by
  have hw1 : (if n < 0 then print_char 45 w else w).InBounds := by
    split
    · exact print_char_in_bounds _ _ h
    · exact h
  have hframe := print_number_peel_frame _ (if n < 0 then wrap64 (n * -1) else n)
    (if n < 0 then print_char 45 w else w) 0 rfl
  have hp : (print_number_peel (if n < 0 then wrap64 (n * -1) else n)
      (if n < 0 then print_char 45 w else w) 0).2.1.InBounds := by
    unfold Writer.InBounds at hw1 ⊢
    rw [hframe.2.1]
    exact hw1
  unfold print_number
  simp only
  split
  · exact print_char_in_bounds _ _
      (print_number_emit_in_bounds _ _ (print_char_in_bounds _ _ hp))
  · exact print_number_emit_in_bounds _ _ (print_char_in_bounds _ _ hp)

theorem writer_reachable_in_bounds (w : Writer) (h : Writer.Reachable w) : w.InBounds := by
  induction h with
  | start => exact Nat.zero_le _
  | after_flush w _ _ => exact Nat.zero_le _
  | after_print_char c w _ ih => exact print_char_in_bounds c w ih
  | after_print_string s w _ ih => exact print_string_in_bounds s w ih
  | after_print_number n after w _ ih => exact print_number_in_bounds n after w ih

end fast_output

/-! ## Properties of the reader -/

theorem window_succ (buf : Nat → Int) (pos n : Nat) :
    window buf pos (n + 1) = buf pos :: window buf (pos + 1) n := by
  unfold window
  rw [List.range_succ_eq_map]
  simp only [List.map_cons, List.map_map, Nat.add_zero]
  congr 1
  apply List.map_congr_left
  intro i _
  simp only [Function.comp_apply]
  congr 1
  omega

theorem window_store (buf : Nat → Int) (got : List Byte) :
    window (store buf got) 0 got.length = got.map charOfByte := by
  apply List.ext_get
  · simp [window]
  · intro i h1 h2
    have hi : i < got.length := by simpa [window] using h1
    simp [window, store, List.getElem?_eq_getElem hi]

theorem SrcOk_flatten_nil {chunks : List (List Byte)}
    (h : ∀ ch ∈ chunks, ch = []) : chunks.flatten = [] := by
  induction chunks with
  | nil => rfl
  | cons a l ih =>
    rw [List.flatten_cons, h a (List.mem_cons_self _ _),
      ih (fun ch hc => h ch (List.mem_cons_of_mem _ hc))]
    rfl

theorem fread_spec (count : Nat) (s : Source) (hc : 0 < count) (hs : SrcOk s.chunks) :
    (fread count s).1 ++ (fread count s).2.chunks.flatten = s.chunks.flatten ∧
    SrcOk (fread count s).2.chunks ∧
    ((fread count s).1 = [] → s.chunks.flatten = [] ∧ (fread count s).2.chunks.flatten = []) ∧
    (fread count s).1.length ≤ count := by
  unfold fread
  cases hch : s.chunks with
  | nil => simp [SrcOk]
  | cons ch rest =>
    rw [hch] at hs
    have hrest : SrcOk rest := by
      rcases hs with h | h
      · exact Or.inl (fun c hc => h c (List.mem_cons_of_mem _ hc))
      · exact Or.inr (fun c hc => h c (List.mem_cons_of_mem _ hc))
    by_cases hle : ch.length ≤ count
    · simp only [if_pos hle, List.flatten_cons, true_and]
      refine ⟨hrest, ?_, hle⟩
      intro hnil
      rcases hs with h | h
      · exact absurd hnil (h ch (List.mem_cons_self _ _))
      · have := SrcOk_flatten_nil h
        rw [List.flatten_cons, hnil] at this
        simp only [List.nil_append] at this
        simp [hnil, this]
    · simp only [if_neg hle, List.flatten_cons]
      have hne : ch ≠ [] := by
        intro h
        rw [h] at hle
        simp at hle
      refine ⟨by rw [← List.append_assoc, List.take_append_drop], ?_, ?_, ?_⟩
      · left
        rcases hs with h | h
        · intro c hc
          rcases List.mem_cons.mp hc with h1 | h1
          · rw [h1]
            intro hd
            have := congrArg List.length hd
            simp at this
            omega
          · exact h c (List.mem_cons_of_mem _ h1)
        · exact absurd (h ch (List.mem_cons_self _ _)) hne
      · intro hnil
        have := congrArg List.length hnil
        rw [List.length_take, List.length_nil] at this
        omega
      · rw [List.length_take]
        omega

namespace fast_input

theorem buffer_size_pos : 0 < buffer_size := by decide

theorem fresh_ok (input : List Byte) : (Reader.fresh input).Ok := by
  refine ⟨Nat.le_refl _, ?_⟩
  by_cases h : input = []
  · right
    intro ch hc
    simp [Reader.fresh] at hc
    rw [hc, h]
  · left
    intro ch hc
    simp [Reader.fresh] at hc
    rw [hc]
    exact h

theorem fresh_pending (input : List Byte) :
    (Reader.fresh input).pending = input.map charOfByte := by
  simp [Reader.pending, Reader.unread, Reader.fresh, window]

theorem read_char_cons (r : Reader) (c : Int) (cs : List Int) (hok : r.Ok)
    (hp : r.pending = c :: cs) :
    (read_char r).1 = c ∧ (read_char r).2.Ok ∧ (read_char r).2.pending = cs := by
  obtain ⟨hle, hsrc⟩ := hok
  unfold Reader.pending Reader.unread at hp
  by_cases heq : r.input_position = r.input_length
  · obtain ⟨f1, f2, f3, _⟩ := fread_spec buffer_size r.stdin buffer_size_pos hsrc
    rw [heq, Nat.sub_self] at hp
    simp only [window, List.range_zero, List.map_nil, List.nil_append] at hp
    have hgot : (fread buffer_size r.stdin).1 ≠ [] := by
      intro h
      rw [(f3 h).1] at hp
      simp at hp
    have hlen : (fread buffer_size r.stdin).1.length ≠ 0 := by
      intro h
      exact hgot (List.length_eq_zero.mp h)
    have hs := window_store r.input_buffer (fread buffer_size r.stdin).1
    obtain ⟨k, hk⟩ := Nat.exists_eq_succ_of_ne_zero hlen
    rw [hk, Nat.succ_eq_add_one, window_succ] at hs
    rw [← f1, List.map_append, ← hs, List.cons_append] at hp
    obtain ⟨h1, h2⟩ := List.cons.inj hp
    simp only [read_char, if_pos heq, if_neg hlen]
    refine ⟨h1, ⟨by simp only; omega, f2⟩, ?_⟩
    simp only [Reader.pending, Reader.unread]
    rw [hk]
    simpa using h2
  · have hlt : r.input_position < r.input_length := by omega
    obtain ⟨k, hk⟩ : ∃ k, r.input_length - r.input_position = k + 1 :=
      ⟨r.input_length - r.input_position - 1, by omega⟩
    rw [hk, window_succ, List.cons_append] at hp
    obtain ⟨h1, h2⟩ := List.cons.inj hp
    simp only [read_char, if_neg heq]
    refine ⟨h1, ⟨by simp only; omega, hsrc⟩, ?_⟩
    simp only [Reader.pending, Reader.unread]
    have : r.input_length - (r.input_position + 1) = k := by omega
    rw [this]
    exact h2

theorem read_char_nil (r : Reader) (hok : r.Ok) (hp : r.pending = []) :
    (read_char r).1 = EOF ∧ (read_char r).2.Ok ∧ (read_char r).2.pending = [] := by
  obtain ⟨hle, hsrc⟩ := hok
  unfold Reader.pending Reader.unread at hp
  obtain ⟨hp1, hp2⟩ := List.append_eq_nil.mp hp
  have heq : r.input_position = r.input_length := by
    by_contra hne
    obtain ⟨k, hk⟩ : ∃ k, r.input_length - r.input_position = k + 1 :=
      ⟨r.input_length - r.input_position - 1, by omega⟩
    rw [hk, window_succ] at hp1
    simp at hp1
  obtain ⟨f1, f2, f3, _⟩ := fread_spec buffer_size r.stdin buffer_size_pos hsrc
  have hfl : r.stdin.chunks.flatten = [] := by
    simpa using hp2
  rw [hfl] at f1
  obtain ⟨g1, g2⟩ := List.append_eq_nil.mp f1
  have hlen : (fread buffer_size r.stdin).1.length = 0 := by rw [g1]; rfl
  simp only [read_char, if_pos heq, if_pos hlen]
  refine ⟨by decide, ⟨by simp only; omega, f2⟩, ?_⟩
  simp [Reader.pending, Reader.unread, hlen, g2, window]

theorem read_number_skip_spec (P : List Int) (d : Int) (rest : List Int) :
    ∀ (fuel : Nat) (sign : Int) (r : Reader), r.Ok → r.pending = P ++ d :: rest →
      (∀ c ∈ P, isdigit c = false) → isdigit d = true → P.length < fuel →
      ∃ r1, read_number_skip fuel sign r = some (d, (if (45 : Int) ∈ P then -1 else sign), r1) ∧
        r1.Ok ∧ r1.pending = rest := by
  induction P with
  | nil =>
    intro fuel sign r hok hp _ hd hf
    obtain ⟨f, rfl⟩ : ∃ f, fuel = f + 1 := ⟨fuel - 1, by simp at hf; omega⟩
    obtain ⟨h1, h2, h3⟩ := read_char_cons r d rest hok hp
    refine ⟨(read_char r).2, ?_, h2, h3⟩
    simp [read_number_skip, h1, hd]
  | cons c P ih =>
    intro fuel sign r hok hp hP hd hf
    obtain ⟨f, rfl⟩ : ∃ f, fuel = f + 1 := ⟨fuel - 1, by simp at hf; omega⟩
    obtain ⟨h1, h2, h3⟩ := read_char_cons r c (P ++ d :: rest) hok hp
    have hc : isdigit c = false := hP c (List.mem_cons_self _ _)
    obtain ⟨r1, e, ok1, p1⟩ := ih f (if c = 45 then -1 else sign) (read_char r).2 h2 h3
      (fun x hx => hP x (List.mem_cons_of_mem _ hx)) hd
      (by simp only [List.length_cons] at hf; omega)
    refine ⟨r1, ?_, ok1, p1⟩
    simp only [read_number_skip, h1, hc, Bool.not_false, if_true, e]
    by_cases h45 : c = 45
    · simp [h45]
    · have : (45 : Int) ≠ c := fun h => h45 h.symm
      simp [h45, this]

theorem read_number_digits_spec (D : List Int) (R : List Int) :
    ∀ (fuel : Nat) (n : Int) (r : Reader), r.Ok → r.pending = D ++ R →
      (∀ c ∈ D, isdigit c = true) → (∀ c R1, R = c :: R1 → isdigit c = false) →
      D.length < fuel →
      ∃ r1, read_number_digits fuel n r = some (D.foldl accumulate n, r1) ∧
        r1.Ok ∧ r1.pending = R.tail := by
  induction D with
  | nil =>
    intro fuel n r hok hp _ hR hf
    obtain ⟨f, rfl⟩ : ∃ f, fuel = f + 1 := ⟨fuel - 1, by simp at hf; omega⟩
    cases R with
    | nil =>
      obtain ⟨h1, h2, h3⟩ := read_char_nil r hok hp
      refine ⟨(read_char r).2, ?_, h2, h3⟩
      have : isdigit EOF = false := by decide
      simp [read_number_digits, h1, this]
    | cons c R1 =>
      obtain ⟨h1, h2, h3⟩ := read_char_cons r c R1 hok hp
      refine ⟨(read_char r).2, ?_, h2, h3⟩
      simp [read_number_digits, h1, hR c R1 rfl]
  | cons c D ih =>
    intro fuel n r hok hp hD hR hf
    obtain ⟨f, rfl⟩ : ∃ f, fuel = f + 1 := ⟨fuel - 1, by simp at hf; omega⟩
    obtain ⟨h1, h2, h3⟩ := read_char_cons r c (D ++ R) hok hp
    have hc : isdigit c = true := hD c (List.mem_cons_self _ _)
    obtain ⟨r1, e, ok1, p1⟩ := ih f (accumulate n c) (read_char r).2 h2 h3
      (fun x hx => hD x (List.mem_cons_of_mem _ hx)) hR
      (by simp only [List.length_cons] at hf; omega)
    refine ⟨r1, ?_, ok1, p1⟩
    simp only [read_number_digits, h1, hc, if_true, List.foldl_cons]
    exact e

theorem read_number_spec (P : List Int) (d : Int) (D R : List Int) (fuel : Nat) (r : Reader)
    (hok : r.Ok) (hp : r.pending = P ++ d :: (D ++ R))
    (hP : ∀ c ∈ P, isdigit c = false) (hd : isdigit d = true)
    (hD : ∀ c ∈ D, isdigit c = true) (hR : ∀ c R1, R = c :: R1 → isdigit c = false)
    (hf : P.length + D.length < fuel) :
    ∃ r1, read_number fuel r
        = some (wrap64 (D.foldl accumulate (wrap64 (d - 48)) *
            (if (45 : Int) ∈ P then -1 else 1)), r1) ∧
      r1.Ok ∧ r1.pending = R.tail := by
  obtain ⟨r1, e1, ok1, p1⟩ :=
    read_number_skip_spec P d (D ++ R) fuel 1 r hok hp hP hd (by omega)
  obtain ⟨r2, e2, ok2, p2⟩ :=
    read_number_digits_spec D R fuel (wrap64 (d - 48)) r1 ok1 p1 hD hR (by omega)
  exact ⟨r2, by simp [read_number, e1, e2], ok2, p2⟩

/-- On a reader with no digit left to read, the first loop of `read_number`
never ends. -/
theorem read_number_skip_diverges :
    ∀ (fuel : Nat) (sign : Int) (r : Reader), r.Ok →
      (∀ c ∈ r.pending, isdigit c = false) → read_number_skip fuel sign r = none := by
  intro fuel
  induction fuel with
  | zero => intros; rfl
  | succ f ih =>
    intro sign r hok hnd
    cases hp : r.pending with
    | nil =>
      obtain ⟨h1, h2, h3⟩ := read_char_nil r hok hp
      have : isdigit EOF = false := by decide
      simp only [read_number_skip, h1, this, Bool.not_false, if_true]
      exact ih _ _ h2 (by rw [h3]; intro c hc; cases hc)
    | cons c cs =>
      obtain ⟨h1, h2, h3⟩ := read_char_cons r c cs hok hp
      have hc : isdigit c = false := hnd c (by rw [hp]; exact List.mem_cons_self _ _)
      simp only [read_number_skip, h1, hc, Bool.not_false, if_true]
      exact ih _ _ h2 (by
        rw [h3]
        intro x hx
        exact hnd x (by rw [hp]; exact List.mem_cons_of_mem _ hx))

theorem isdigit_charOfByte (b : Byte) : isdigit (charOfByte b) = isDigitByte b := by
  have hb := b.isLt
  unfold isdigit isDigitByte charOfByte
  rw [Bool.eq_iff_iff]
  simp only [Bool.and_eq_true, decide_eq_true_eq]
  split <;> omega

theorem charOfByte_eq_minus (b : Byte) : charOfByte b = 45 ↔ b = 45 := by
  have hb := b.isLt
  unfold charOfByte
  constructor
  · intro h
    apply Fin.ext
    show b.val = 45
    split at h <;> omega
  · intro h
    subst h
    decide

theorem isdigit_bounds {c : Int} (h : isdigit c = true) : 48 ≤ c ∧ c ≤ 57 := by
  simpa [isdigit] using h

theorem wrap64_of_range (x : Int) (h0 : -(2 ^ 63) ≤ x) (h1 : x < 2 ^ 63) : wrap64 x = x := by
  unfold wrap64
  omega

theorem foldl_exact_ge (D : List Int) (hD : ∀ c ∈ D, isdigit c = true) :
    ∀ n : Int, 0 ≤ n → n ≤ D.foldl accumulate_exact n := by
  induction D with
  | nil => intro n _; exact Int.le_refl _
  | cons c D ih =>
    intro n hn
    have hc := isdigit_bounds (hD c (List.mem_cons_self _ _))
    have h1 : 0 ≤ accumulate_exact n c := by unfold accumulate_exact; omega
    have h2 := ih (fun x hx => hD x (List.mem_cons_of_mem _ hx)) _ h1
    rw [List.foldl_cons]
    unfold accumulate_exact at h1 h2 ⊢
    omega

theorem foldl_accumulate_exact (D : List Int) (hD : ∀ c ∈ D, isdigit c = true) :
    ∀ n : Int, 0 ≤ n → D.foldl accumulate_exact n < 2 ^ 63 →
      D.foldl accumulate n = D.foldl accumulate_exact n := by
  induction D with
  | nil => intro n _ _; rfl
  | cons c D ih =>
    intro n hn hlt
    have hc := isdigit_bounds (hD c (List.mem_cons_self _ _))
    have hD1 : ∀ x ∈ D, isdigit x = true := fun x hx => hD x (List.mem_cons_of_mem _ hx)
    have h1 : 0 ≤ accumulate_exact n c := by unfold accumulate_exact; omega
    have h2 := foldl_exact_ge D hD1 _ h1
    rw [List.foldl_cons] at hlt
    have h3 : accumulate n c = accumulate_exact n c := by
      unfold accumulate_exact at h1 h2 hlt ⊢
      unfold accumulate
      rw [wrap64_of_range (10 * n) (by omega) (by omega),
        wrap64_of_range _ (by omega) (by omega)]
    rw [List.foldl_cons, List.foldl_cons, h3]
    exact ih hD1 _ h1 hlt

theorem foldl_exact_bytes (D : List Byte) (hD : ∀ b ∈ D, isDigitByte b = true) :
    ∀ v : Nat, (D.map charOfByte).foldl accumulate_exact (v : Int)
      = ((D.foldl (fun v b => 10 * v + (b.val - 48)) v : Nat) : Int) := by
  induction D with
  | nil => intro v; rfl
  | cons b D ih =>
    intro v
    have hb : isDigitByte b = true := hD b (List.mem_cons_self _ _)
    have hb2 : 48 ≤ b.val ∧ b.val ≤ 57 := by simpa [isDigitByte] using hb
    have hstep : accumulate_exact (v : Int) (charOfByte b)
        = ((10 * v + (b.val - 48) : Nat) : Int) := by
      unfold accumulate_exact charOfByte
      rw [if_pos (by omega)]
      omega
    rw [List.map_cons, List.foldl_cons, List.foldl_cons, hstep]
    exact ih (fun x hx => hD x (List.mem_cons_of_mem _ hx)) _

/-- The characters of a run of ASCII digits whose value fits `int64_t`
accumulate to that value without overflow. -/
theorem foldl_accumulate_bytes (D : List Byte) (hD : ∀ b ∈ D, isDigitByte b = true)
    (hv : decimal_value D < 2 ^ 63) :
    (D.map charOfByte).foldl accumulate 0 = (decimal_value D : Int) := by
  have hD1 : ∀ c ∈ D.map charOfByte, isdigit c = true := by
    intro c hc
    obtain ⟨b, hb, rfl⟩ := List.mem_map.mp hc
    rw [isdigit_charOfByte]
    exact hD b hb
  have h := foldl_exact_bytes D hD 0
  rw [foldl_accumulate_exact _ hD1 0 (Int.le_refl _)]
  · exact h
  · rw [show ((0 : Nat) : Int) = 0 from rfl] at h
    rw [h]
    unfold decimal_value at hv
    exact_mod_cast hv

theorem accumulate_zero (d : Int) : accumulate 0 d = wrap64 (d - 48) := by
  unfold accumulate
  have : wrap64 (10 * 0) = 0 := by decide
  rw [this, Int.zero_add]

/-- The reader over pending bytes of the shape of a signed decimal numeral. -/
theorem read_number_bytes (P D R : List Byte) (minus : Bool) (fuel : Nat) (r : Reader)
    (hok : r.Ok)
    (hp : r.pending = (P ++ (if minus then [45] else []) ++ D ++ R).map charOfByte)
    (hP : ∀ b ∈ P, isDigitByte b = false ∧ b ≠ 45)
    (hne : D ≠ [])
    (hD : ∀ b ∈ D, isDigitByte b = true)
    (hv : decimal_value D < 2 ^ 63)
    (hR : ∀ b R1, R = b :: R1 → isDigitByte b = false)
    (hf : (P ++ (if minus then [45] else []) ++ D ++ R).length < fuel) :
    ∃ r1, read_number fuel r
        = some ((if minus then -(decimal_value D : Int) else (decimal_value D : Int)), r1) ∧
      r1.Ok ∧ r1.pending = R.tail.map charOfByte := by
  obtain ⟨d, D1, rfl⟩ := List.exists_cons_of_ne_nil hne
  have hval := foldl_accumulate_bytes (d :: D1) hD hv
  rw [List.map_cons, List.foldl_cons, accumulate_zero] at hval
  have hQ : ∀ c ∈ (P ++ (if minus then [45] else [])).map charOfByte, isdigit c = false := by
    intro c hc
    obtain ⟨b, hb, rfl⟩ := List.mem_map.mp hc
    rw [isdigit_charOfByte]
    rcases List.mem_append.mp hb with h | h
    · exact (hP b h).1
    · cases minus with
      | false => simp at h
      | true =>
        simp only [if_true, List.mem_singleton] at h
        subst h
        decide
  have h45 : (45 : Int) ∈ (P ++ (if minus then [45] else [])).map charOfByte ↔ minus = true := by
    constructor
    · intro hc
      obtain ⟨b, hb, hb45⟩ := List.mem_map.mp hc
      have hb45 := (charOfByte_eq_minus b).mp hb45
      rcases List.mem_append.mp hb with h | h
      · exact absurd hb45 (hP b h).2
      · cases minus with
        | false => simp at h
        | true => rfl
    · intro hm
      subst hm
      exact List.mem_map.mpr ⟨45, by simp, by decide⟩
  have hp1 : r.pending = (P ++ (if minus then [45] else [])).map charOfByte
      ++ charOfByte d :: (D1.map charOfByte ++ R.map charOfByte) := by
    rw [hp]
    simp
  obtain ⟨r1, e, ok1, p1⟩ := read_number_spec _ (charOfByte d) (D1.map charOfByte)
    (R.map charOfByte) fuel r hok hp1 hQ
    (by rw [isdigit_charOfByte]; exact hD d (List.mem_cons_self _ _))
    (by
      intro c hc
      obtain ⟨b, hb, rfl⟩ := List.mem_map.mp hc
      rw [isdigit_charOfByte]
      exact hD b (List.mem_cons_of_mem _ hb))
    (by
      intro c R1 hc
      cases R with
      | nil => simp at hc
      | cons b R2 =>
        simp only [List.map_cons, List.cons.injEq] at hc
        rw [← hc.1, isdigit_charOfByte]
        exact hR b R2 rfl)
    (by
      simp only [List.length_append, List.length_map, List.length_cons] at hf ⊢
      omega)
  refine ⟨r1, ?_, ok1, by rw [p1, List.map_tail]⟩
  rw [e, hval]
  have hv1 : ((decimal_value (d :: D1) : Nat) : Int) < 2 ^ 63 := by exact_mod_cast hv
  cases minus with
  | false =>
    have : ¬ ((45 : Int) ∈ (P ++ (if false then [45] else [])).map charOfByte) := by
      rw [h45]
      simp
    rw [if_neg this]
    simp only [Bool.false_eq_true, if_false, Int.mul_one]
    rw [wrap64_of_range _ (by omega) hv1]
  | true =>
    rw [if_pos (h45.mpr rfl)]
    simp only [if_true]
    rw [wrap64_of_range _ (by omega) (by omega)]
    simp

/-- C4: on an input made of skipped bytes (neither digits nor `'-'`), an optional
single `'-'`, a non-empty run of digits of value `v` that fits `int64_t`, and a
rest that is empty or starts with a non-digit, `read_number` returns `v`, or
`-v` when the `'-'` is there. -/
theorem read_number_parses (P D R : List Byte) (minus : Bool) (fuel : Nat)
    (hP : ∀ b ∈ P, isDigitByte b = false ∧ b ≠ 45)
    (hne : D ≠ [])
    (hD : ∀ b ∈ D, isDigitByte b = true)
    (hv : decimal_value D < 2 ^ 63)
    (hR : ∀ b R1, R = b :: R1 → isDigitByte b = false)
    (hf : (P ++ (if minus then [45] else []) ++ D ++ R).length < fuel) :
    ∃ r1, read_number fuel (Reader.fresh (P ++ (if minus then [45] else []) ++ D ++ R))
        = some ((if minus then -(decimal_value D : Int) else (decimal_value D : Int)), r1) := by
  obtain ⟨r1, e, _, _⟩ := read_number_bytes P D R minus fuel _ (fresh_ok _)
    (fresh_pending _) hP hne hD hv hR hf
  exact ⟨r1, e⟩

set_option maxRecDepth 4000 in
theorem read_number_parses_witness :
    (∀ b ∈ ([32, 43] : List Byte), isDigitByte b = false ∧ b ≠ 45) ∧
    (([52, 50] : List Byte) ≠ []) ∧
    (∀ b ∈ ([52, 50] : List Byte), isDigitByte b = true) ∧
    decimal_value [52, 50] < 2 ^ 63 ∧
    ∃ r1, read_number 8
        (Reader.fresh ([32, 43] ++ (if true then [45] else []) ++ [52, 50] ++ [10]))
      = some ((if true then -(decimal_value [52, 50] : Int) else (decimal_value [52, 50] : Int)),
          r1) :=
  ⟨by decide, by decide, by decide, by decide,
    read_number_parses [32, 43] [52, 50] [10] true 8 (by decide) (by decide) (by decide)
      (by decide) (by intro b R1 h; cases h; decide) (by decide)⟩

/-- C10 (the code fails the claim): on an input without any ASCII digit,
the empty input included, `read_number` returns for no amount of fuel: its
first loop reads `EOF` for ever. -/
theorem read_number_without_digit_never_returns (input : List Byte)
    (h : ∀ b ∈ input, isDigitByte b = false) :
    ∀ fuel, read_number fuel (Reader.fresh input) = none := by
  intro fuel
  have := read_number_skip_diverges fuel 1 (Reader.fresh input) (fresh_ok input) (by
    rw [fresh_pending]
    intro c hc
    obtain ⟨b, hb, rfl⟩ := List.mem_map.mp hc
    rw [isdigit_charOfByte]
    exact h b hb)
  simp [read_number, this]

theorem read_number_without_digit_never_returns_witness :
    (∀ b ∈ ([] : List Byte), isDigitByte b = false) ∧
    ∀ fuel, read_number fuel (Reader.fresh []) = none :=
  ⟨by simp, read_number_without_digit_never_returns [] (by simp)⟩

theorem fread_exhausted (count : Nat) (s : Source) (h : ∀ ch ∈ s.chunks, ch = []) :
    (fread count s).1 = [] ∧ (∀ ch ∈ (fread count s).2.chunks, ch = []) ∧
    (fread count s).2.attempts = s.attempts + 1 := by
  unfold fread
  cases hch : s.chunks with
  | nil => simp [hch]
  | cons ch rest =>
    rw [hch] at h
    have h0 : ch = [] := h ch (List.mem_cons_self _ _)
    subst h0
    simp only [List.length_nil, Nat.zero_le, if_true, true_and, and_true]
    exact fun c hc => h c (List.mem_cons_of_mem _ hc)

theorem read_char_exhausted (r : Reader) (hbuf : r.input_position = r.input_length)
    (hsrc : ∀ ch ∈ r.stdin.chunks, ch = []) :
    (read_char r).1 = EOF ∧
    (read_char r).2.input_position = (read_char r).2.input_length ∧
    (∀ ch ∈ (read_char r).2.stdin.chunks, ch = []) ∧
    (read_char r).2.stdin.attempts = r.stdin.attempts + 1 := by
  obtain ⟨f1, f2, f3⟩ := fread_exhausted buffer_size r.stdin hsrc
  have hlen : (fread buffer_size r.stdin).1.length = 0 := by rw [f1]; rfl
  simp only [read_char, if_pos hbuf, if_pos hlen]
  exact ⟨by decide, hlen.symm, f2, f3⟩

theorem read_char_times_exhausted (k : Nat) :
    ∀ r : Reader, r.input_position = r.input_length → (∀ ch ∈ r.stdin.chunks, ch = []) →
      (read_char_times k r).input_position = (read_char_times k r).input_length ∧
      (∀ ch ∈ (read_char_times k r).stdin.chunks, ch = []) ∧
      (read_char_times k r).stdin.attempts = r.stdin.attempts + k := by
  induction k with
  | zero => intro r hbuf hsrc; exact ⟨hbuf, hsrc, rfl⟩
  | succ k ih =>
    intro r hbuf hsrc
    obtain ⟨_, h2, h3, h4⟩ := read_char_exhausted r hbuf hsrc
    obtain ⟨i1, i2, i3⟩ := ih (read_char r).2 h2 h3
    refine ⟨i1, i2, ?_⟩
    show (read_char_times k (read_char r).2).stdin.attempts = _
    rw [i3, h4]
    omega

theorem dropWhile_head_false {p : Int → Bool} {l : List Int} {x : Int} {xs : List Int}
    (h : l.dropWhile p = x :: xs) : p x = false := by
  have := List.head_dropWhile_not p l (by rw [h]; simp)
  simpa [h] using this

/-- The converse of the divergence: on an input with an ASCII digit somewhere,
`read_number` returns, with enough fuel. -/
theorem read_number_returns_of_digit (input : List Byte)
    (h : ∃ b ∈ input, isDigitByte b = true) :
    ∃ fuel v r1, read_number fuel (Reader.fresh input) = some (v, r1) := by
  have hsplit := List.takeWhile_append_dropWhile (fun c => !isdigit c) (input.map charOfByte)
  have hne : (input.map charOfByte).dropWhile (fun c => !isdigit c) ≠ [] := by
    intro h0
    rw [List.dropWhile_eq_nil_iff] at h0
    obtain ⟨b, hb, hd⟩ := h
    have := h0 (charOfByte b) (List.mem_map_of_mem _ hb)
    simp [isdigit_charOfByte, hd] at this
  obtain ⟨d, tl, htl⟩ := List.exists_cons_of_ne_nil hne
  have hd : isdigit d = true := by
    have := dropWhile_head_false htl
    simpa using this
  have hsplit2 := List.takeWhile_append_dropWhile isdigit tl
  have hlen := congrArg List.length hsplit
  rw [htl, ← hsplit2] at hlen
  simp only [List.length_append, List.length_cons, List.length_map] at hlen
  obtain ⟨r1, e, _, _⟩ := read_number_spec
    ((input.map charOfByte).takeWhile (fun c => !isdigit c)) d
    (tl.takeWhile isdigit) (tl.dropWhile isdigit) (input.length + 1)
    (Reader.fresh input) (fresh_ok _)
    (by rw [fresh_pending, hsplit2, ← htl, hsplit])
    (fun c hc => by simpa using List.mem_takeWhile_imp hc) hd
    (fun c hc => List.mem_takeWhile_imp hc)
    (fun c R1 hR => dropWhile_head_false hR)
    (by omega)
  exact ⟨_, _, r1, e⟩

/-- C7: once the buffer is used up and every coming bulk read obtains zero
bytes, each call of `read_char`, the first and every later one, returns `EOF`. -/
theorem read_char_eof_after_exhaustion (r : Reader) (k : Nat)
    (hbuf : r.input_position = r.input_length)
    (hsrc : ∀ ch ∈ r.stdin.chunks, ch = []) :
    (read_char (read_char_times k r)).1 = EOF := by
  obtain ⟨h1, h2, _⟩ := read_char_times_exhausted k r hbuf hsrc
  exact (read_char_exhausted _ h1 h2).1

theorem read_char_eof_after_exhaustion_witness :
    (Reader.fresh []).input_position = (Reader.fresh []).input_length ∧
    (∀ ch ∈ (Reader.fresh []).stdin.chunks, ch = []) ∧
    (read_char (read_char_times 5 (Reader.fresh []))).1 = EOF :=
  ⟨rfl, by decide, read_char_eof_after_exhaustion (Reader.fresh []) 5 rfl (by decide)⟩

/-- C8 (as stated, refuted): on the empty source the first `read_char` observes
a bulk read of zero bytes, and the three calls after it attempt three more
bulk reads, not at most one. -/
theorem read_char_retries_after_exhaustion :
    (read_char (Reader.fresh [])).1 = EOF ∧
    (read_char (Reader.fresh [])).2.input_length = 0 ∧
    (read_char (Reader.fresh [])).2.stdin.attempts = 1 ∧
    (read_char_times 3 (read_char (Reader.fresh [])).2).stdin.attempts = 4 ∧
    ¬ ((read_char_times 3 (read_char (Reader.fresh [])).2).stdin.attempts
        ≤ (read_char (Reader.fresh [])).2.stdin.attempts + 1) := by
  decide

/-- C8 (amended): once the buffer is used up and every coming bulk read obtains
zero bytes, each further call of `read_char` attempts exactly one more bulk
read: after `k` calls the source has been touched `k` more times. -/
theorem read_char_attempts_after_exhaustion (r : Reader) (k : Nat)
    (hbuf : r.input_position = r.input_length)
    (hsrc : ∀ ch ∈ r.stdin.chunks, ch = []) :
    (read_char_times k r).stdin.attempts = r.stdin.attempts + k :=
  (read_char_times_exhausted k r hbuf hsrc).2.2

theorem read_char_attempts_after_exhaustion_witness :
    (read_char (Reader.fresh [])).2.input_position
      = (read_char (Reader.fresh [])).2.input_length ∧
    (∀ ch ∈ (read_char (Reader.fresh [])).2.stdin.chunks, ch = []) ∧
    (read_char_times 7 (read_char (Reader.fresh [])).2).stdin.attempts
      = (read_char (Reader.fresh [])).2.stdin.attempts + 7 :=
  ⟨by decide, by decide,
    read_char_attempts_after_exhaustion (read_char (Reader.fresh [])).2 7
      (by decide) (by decide)⟩

/-- C9: on the source `"  42 -7 abc\n"`, `read_number`, `read_number` and
`read_string` called in that order yield 42, -7 and the token `abc`. -/
theorem read_scenario_mixed :
    (read_number 12 (Reader.fresh [32, 32, 52, 50, 32, 45, 55, 32, 97, 98, 99, 10])).bind
      (fun p1 => (read_number 12 p1.2).bind
        (fun p2 => (read_string 12 [] p2.2).map
          (fun p3 => (p1.1, p2.1, p3.1))))
      = some (42, -7, [97, 98, 99]) := by
  decide

theorem isspace_charOfByte (b : Byte) : isspace (charOfByte b) = isSpaceByte b := by
  have hb := b.isLt
  unfold isspace isSpaceByte charOfByte
  rw [Bool.eq_iff_iff]
  simp only [Bool.or_eq_true, Bool.and_eq_true, decide_eq_true_eq]
  split <;> omega

theorem charOfByte_eq_EOF (b : Byte) : charOfByte b = EOF ↔ b = 255 := by
  have hb := b.isLt
  unfold charOfByte EOF
  constructor
  · intro h
    apply Fin.ext
    show b.val = 255
    split at h <;> omega
  · intro h
    subst h
    decide

theorem read_string_skip_spec (W : List Int) (c : Int) (rest : List Int) :
    ∀ (fuel : Nat) (r : Reader), r.Ok → r.pending = W ++ c :: rest →
      (∀ x ∈ W, isspace x = true) → isspace c = false → W.length < fuel →
      ∃ r1, read_string_skip fuel r = some (c, r1) ∧ r1.Ok ∧ r1.pending = rest := by
  induction W with
  | nil =>
    intro fuel r hok hp _ hc hf
    obtain ⟨f, rfl⟩ : ∃ f, fuel = f + 1 := ⟨fuel - 1, by simp at hf; omega⟩
    obtain ⟨h1, h2, h3⟩ := read_char_cons r c rest hok hp
    refine ⟨(read_char r).2, ?_, h2, h3⟩
    simp only [read_string_skip, h1, hc, Bool.false_eq_true, if_false]
    rw [← h1]
  | cons x W ih =>
    intro fuel r hok hp hW hc hf
    obtain ⟨f, rfl⟩ : ∃ f, fuel = f + 1 := ⟨fuel - 1, by simp at hf; omega⟩
    obtain ⟨h1, h2, h3⟩ := read_char_cons r x (W ++ c :: rest) hok hp
    have hx : isspace x = true := hW x (List.mem_cons_self _ _)
    obtain ⟨r1, e, ok1, p1⟩ := ih f (read_char r).2 h2 h3
      (fun y hy => hW y (List.mem_cons_of_mem _ hy)) hc
      (by simp only [List.length_cons] at hf; omega)
    refine ⟨r1, ?_, ok1, p1⟩
    simp only [read_string_skip, h1, hx, if_true, e]

theorem read_string_take_spec (T : List Int) (R : List Int) :
    ∀ (fuel : Nat) (s : List Int) (c : Int) (r : Reader), r.Ok → r.pending = T ++ R →
      (∀ x ∈ T, isspace x = false ∧ x ≠ EOF) →
      (∀ x R1, R = x :: R1 → isspace x = true ∨ x = EOF) → T.length < fuel →
      ∃ r1, read_string_take fuel s c r = some (s ++ c :: T, r1) ∧
        r1.Ok ∧ r1.pending = R.tail := by
  induction T with
  | nil =>
    intro fuel s c r hok hp _ hR hf
    obtain ⟨f, rfl⟩ : ∃ f, fuel = f + 1 := ⟨fuel - 1, by simp at hf; omega⟩
    cases R with
    | nil =>
      obtain ⟨h1, h2, h3⟩ := read_char_nil r hok hp
      refine ⟨(read_char r).2, ?_, h2, h3⟩
      simp [read_string_take, h1]
    | cons x R1 =>
      obtain ⟨h1, h2, h3⟩ := read_char_cons r x R1 hok hp
      refine ⟨(read_char r).2, ?_, h2, h3⟩
      rcases hR x R1 rfl with hx | hx
      · simp [read_string_take, h1, hx]
      · simp [read_string_take, h1, hx]
  | cons t T ih =>
    intro fuel s c r hok hp hT hR hf
    obtain ⟨f, rfl⟩ : ∃ f, fuel = f + 1 := ⟨fuel - 1, by simp at hf; omega⟩
    obtain ⟨h1, h2, h3⟩ := read_char_cons r t (T ++ R) hok hp
    obtain ⟨ht1, ht2⟩ := hT t (List.mem_cons_self _ _)
    obtain ⟨r1, e, ok1, p1⟩ := ih f (s ++ [c]) t (read_char r).2 h2 h3
      (fun y hy => hT y (List.mem_cons_of_mem _ hy)) hR
      (by simp only [List.length_cons] at hf; omega)
    refine ⟨r1, ?_, ok1, p1⟩
    simp only [read_string_take, h1, ht1, Bool.not_false, Bool.true_and, bne_iff_ne, ne_eq,
      ht2, not_false_eq_true, if_true, e]
    simp

/-- The reader over pending bytes of the shape spaces, token, spaces. -/
theorem read_string_bytes (W1 T W2 : List Byte) (fuel : Nat) (s : List Int) (r : Reader)
    (hok : r.Ok) (hp : r.pending = (W1 ++ T ++ W2).map charOfByte)
    (hW1 : ∀ b ∈ W1, isSpaceByte b = true)
    (hne : T ≠ [])
    (hT : ∀ b ∈ T, isSpaceByte b = false)
    (hT255 : ∀ b ∈ T.tail, b ≠ 255)
    (hW2 : ∀ b ∈ W2, isSpaceByte b = true)
    (hf1 : W1.length < fuel) (hf2 : T.length ≤ fuel) :
    ∃ r1, read_string fuel s r = some (s ++ T.map charOfByte, r1) ∧
      r1.Ok ∧ r1.pending = W2.tail.map charOfByte := by
  obtain ⟨t, T1, rfl⟩ := List.exists_cons_of_ne_nil hne
  have hp1 : r.pending = W1.map charOfByte
      ++ charOfByte t :: (T1.map charOfByte ++ W2.map charOfByte) := by
    rw [hp]
    simp
  obtain ⟨r1, e1, ok1, p1⟩ := read_string_skip_spec _ (charOfByte t) _ fuel r hok hp1
    (by
      intro x hx
      obtain ⟨b, hb, rfl⟩ := List.mem_map.mp hx
      rw [isspace_charOfByte]
      exact hW1 b hb)
    (by rw [isspace_charOfByte]; exact hT t (List.mem_cons_self _ _))
    (by rw [List.length_map]; exact hf1)
  obtain ⟨r2, e2, ok2, p2⟩ := read_string_take_spec (T1.map charOfByte) (W2.map charOfByte)
    fuel s (charOfByte t) r1 ok1 p1
    (by
      intro x hx
      obtain ⟨b, hb, rfl⟩ := List.mem_map.mp hx
      rw [isspace_charOfByte]
      refine ⟨hT b (List.mem_cons_of_mem _ hb), ?_⟩
      intro h
      exact hT255 b hb ((charOfByte_eq_EOF b).mp h))
    (by
      intro x R1 hx
      cases W2 with
      | nil => simp at hx
      | cons b W3 =>
        simp only [List.map_cons, List.cons.injEq] at hx
        left
        rw [← hx.1, isspace_charOfByte]
        exact hW2 b (List.mem_cons_self _ _))
    (by
      simp only [List.length_map, List.length_cons] at hf2 ⊢
      omega)
  refine ⟨r2, ?_, ok2, by rw [p2, List.map_tail]⟩
  simp [read_string, e1, e2]

set_option maxRecDepth 4000 in
/-- C3 (as stated, refuted): on the input `a`, `0xFF`, `b`, space, whose
non-whitespace run is the three bytes `a 0xFF b`, `read_string` returns the
token `a` alone, and returns the whole run for no amount of fuel; and on the
input `a`, `\v`, `b`, space, whose run of bytes other than space, tab, newline
and carriage return is `a \v b`, it returns `a` alone as well. -/
theorem read_string_stops_inside_run :
    (read_string 4 [] (Reader.fresh [97, 255, 98, 32])).map Prod.fst = some [97] ∧
    (read_string 4 [] (Reader.fresh [97, 11, 98, 32])).map Prod.fst = some [97] ∧
    ¬ ∃ fuel, (read_string fuel [] (Reader.fresh [97, 255, 98, 32])).map Prod.fst
        = some (([97, 255, 98] : List Byte).map charOfByte) := by
  refine ⟨by decide, by decide, ?_⟩
  rintro ⟨fuel, h⟩
  cases fuel with
  | zero => simp [read_string, read_string_skip] at h
  | succ f =>
    have hp : (Reader.fresh [97, 255, 98, 32]).pending = [] ++ 97 :: ([] ++ [-1, 98, 32]) := by
      rw [fresh_pending]
      decide
    obtain ⟨r1, e1, ok1, p1⟩ := read_string_skip_spec [] 97 _ (f + 1) _ (fresh_ok _) hp
      (by simp) (by decide) (by simp)
    obtain ⟨r2, e2, _, _⟩ := read_string_take_spec [] [-1, 98, 32] (f + 1) [] 97 r1 ok1 p1
      (by simp) (by intro x R1 hx; right; cases hx; rfl) (by simp)
    rw [read_string, e1] at h
    simp only [e2] at h
    have hlen := congrArg (fun o => o.map List.length) h
    simp at hlen

/-- C3 (amended): on an input made of a run of `isspace` bytes, a non-empty run
`T` of bytes that are not `isspace` bytes and of which none after the first is
`0xFF`, and a non-empty run of `isspace` bytes, `read_string` with an empty
destination returns exactly `T`. -/
theorem read_string_returns_token (W1 T W2 : List Byte) (fuel : Nat)
    (hW1 : ∀ b ∈ W1, isSpaceByte b = true)
    (hne : T ≠ [])
    (hT : ∀ b ∈ T, isSpaceByte b = false)
    (hT255 : ∀ b ∈ T.tail, b ≠ 255)
    (_hne2 : W2 ≠ [])
    (hW2 : ∀ b ∈ W2, isSpaceByte b = true)
    (hf : (W1 ++ T ++ W2).length < fuel) :
    ∃ r1, read_string fuel [] (Reader.fresh (W1 ++ T ++ W2))
      = some (T.map charOfByte, r1) := by
  obtain ⟨r1, e, _, _⟩ := read_string_bytes W1 T W2 fuel [] _ (fresh_ok _)
    (fresh_pending _) hW1 hne hT hT255 hW2
    (by simp only [List.length_append] at hf; omega)
    (by simp only [List.length_append] at hf; omega)
  exact ⟨r1, by simpa using e⟩

set_option maxRecDepth 4000 in
theorem read_string_returns_token_witness :
    (∀ b ∈ ([32, 10] : List Byte), isSpaceByte b = true) ∧
    (([255, 97, 98] : List Byte) ≠ []) ∧
    (∀ b ∈ ([255, 97, 98] : List Byte), isSpaceByte b = false) ∧
    (∀ b ∈ ([255, 97, 98] : List Byte).tail, b ≠ 255) ∧
    (([13, 9] : List Byte) ≠ []) ∧
    (∀ b ∈ ([13, 9] : List Byte), isSpaceByte b = true) ∧
    ∃ r1, read_string 8 [] (Reader.fresh ([32, 10] ++ [255, 97, 98] ++ [13, 9]))
      = some (([255, 97, 98] : List Byte).map charOfByte, r1) :=
  ⟨by decide, by decide, by decide, by decide, by decide, by decide,
    read_string_returns_token [32, 10] [255, 97, 98] [13, 9] 8 (by decide) (by decide)
      (by decide) (by decide) (by decide) (by decide) (by decide)⟩

/-! ### The sentinel, and refills -/

theorem read_char_fresh_cons (b : Byte) (rest : List Byte) :
    (read_char (Reader.fresh (b :: rest))).1 = charOfByte b :=
  (read_char_cons _ (charOfByte b) (rest.map charOfByte) (fresh_ok _)
    (by rw [fresh_pending, List.map_cons])).1

/-- C11 (the code fails the claim): on a source whose next byte is `0xFF`,
`read_char` returns the very value it returns on the exhausted source, `EOF`
converted to `char`; `0xFF` is the only byte for which it does. -/
theorem read_char_sentinel_collides_with_byte_255 :
    (read_char (Reader.fresh [255])).1 = EOF ∧
    (read_char (Reader.fresh [])).1 = EOF ∧
    ∀ (b : Byte) (rest : List Byte),
      (read_char (Reader.fresh (b :: rest))).1 = EOF ↔ b = 255 := by
  refine ⟨by decide, by decide, ?_⟩
  intro b rest
  rw [read_char_fresh_cons]
  exact charOfByte_eq_EOF b

theorem start_ok (chunks : List (List Byte)) (h : ∀ ch ∈ chunks, ch ≠ []) :
    (Reader.start chunks).Ok :=
  ⟨Nat.le_refl _, Or.inl h⟩

theorem start_pending (chunks : List (List Byte)) :
    (Reader.start chunks).pending = chunks.flatten.map charOfByte := by
  simp [Reader.pending, Reader.unread, Reader.start, window]

theorem read_char_times_pending (i : Nat) :
    ∀ r : Reader, r.Ok → i ≤ r.pending.length →
      (read_char_times i r).Ok ∧ (read_char_times i r).pending = r.pending.drop i := by
  induction i with
  | zero => intro r hok _; exact ⟨hok, rfl⟩
  | succ i ih =>
    intro r hok hi
    cases hp : r.pending with
    | nil => rw [hp] at hi; simp at hi
    | cons c cs =>
      obtain ⟨_, h2, h3⟩ := read_char_cons r c cs hok hp
      rw [hp] at hi
      obtain ⟨i1, i2⟩ := ih (read_char r).2 h2
        (by rw [h3]; simp only [List.length_cons] at hi; omega)
      refine ⟨i1, ?_⟩
      show (read_char_times i (read_char r).2).pending = _
      rw [i2, h3]
      rfl

theorem read_char_attempts (r : Reader) :
    (read_char r).2.stdin.attempts
      = r.stdin.attempts + (if r.input_position = r.input_length then 1 else 0) := by
  have hf : (fread buffer_size r.stdin).2.attempts = r.stdin.attempts + 1 := by
    unfold fread
    split
    · rfl
    · split <;> rfl
  unfold read_char
  by_cases h : r.input_position = r.input_length
  · simp only [if_pos h]
    split <;> exact hf
  · simp only [if_neg h]
    rfl

/-- C17: over a source that delivers the bytes `B` in non-empty chunks, however
cut, and zero bytes afterwards, the `i`-th call of `read_char` on a fresh
reader returns the `i`-th byte of `B` as a `char`, for every `i` below the
length of `B`; and that call makes one bulk read when
`input_position = input_length`, and none otherwise. -/
theorem read_char_refill_transparent (chunks : List (List Byte)) (i : Nat)
    (hch : ∀ ch ∈ chunks, ch ≠ [] ∧ ch.length ≤ buffer_size)
    (hi : i < chunks.flatten.length) :
    (read_char (read_char_times i (Reader.start chunks))).1
      = charOfByte (chunks.flatten.get ⟨i, hi⟩) ∧
    (read_char (read_char_times i (Reader.start chunks))).2.stdin.attempts
      = (read_char_times i (Reader.start chunks)).stdin.attempts
        + (if (read_char_times i (Reader.start chunks)).input_position
              = (read_char_times i (Reader.start chunks)).input_length then 1 else 0) := by
  refine ⟨?_, read_char_attempts _⟩
  have hok := start_ok chunks (fun ch hc => (hch ch hc).1)
  have hlen : i ≤ (Reader.start chunks).pending.length := by
    rw [start_pending, List.length_map]
    omega
  obtain ⟨ok1, p1⟩ := read_char_times_pending i _ hok hlen
  rw [start_pending] at p1
  have hi2 : i < (chunks.flatten.map charOfByte).length := by
    rw [List.length_map]
    exact hi
  rw [List.drop_eq_getElem_cons hi2] at p1
  obtain ⟨h1, _, _⟩ := read_char_cons _ _ _ ok1 p1
  rw [h1, List.getElem_map]
  rfl

set_option maxRecDepth 4000 in
theorem read_char_refill_transparent_witness :
    (∀ ch ∈ ([[104], [105, 255], [10]] : List (List Byte)),
      ch ≠ [] ∧ ch.length ≤ buffer_size) ∧
    (2 < ([[104], [105, 255], [10]] : List (List Byte)).flatten.length) ∧
    (read_char (read_char_times 2 (Reader.start [[104], [105, 255], [10]]))).1 = -1 :=
  ⟨by decide, by decide,
    (read_char_refill_transparent [[104], [105, 255], [10]] 2 (by decide) (by decide)).1⟩

/-! ### The sign, and the byte after the digits -/

/-- The reader over pending bytes of the shape skipped bytes, digits, rest,
where the skipped bytes may hold a `'-'` anywhere. -/
theorem read_number_bytes_sign (P D R : List Byte) (fuel : Nat) (r : Reader)
    (hok : r.Ok) (hp : r.pending = (P ++ D ++ R).map charOfByte)
    (hP : ∀ b ∈ P, isDigitByte b = false)
    (hne : D ≠ [])
    (hD : ∀ b ∈ D, isDigitByte b = true)
    (hv : decimal_value D < 2 ^ 63)
    (hR : ∀ b R1, R = b :: R1 → isDigitByte b = false)
    (hf : (P ++ D ++ R).length < fuel) :
    ∃ r1, read_number fuel r
        = some ((if (45 : Byte) ∈ P then -(decimal_value D : Int)
            else (decimal_value D : Int)), r1) ∧
      r1.Ok ∧ r1.pending = R.tail.map charOfByte := by
  obtain ⟨d, D1, rfl⟩ := List.exists_cons_of_ne_nil hne
  have hval := foldl_accumulate_bytes (d :: D1) hD hv
  rw [List.map_cons, List.foldl_cons, accumulate_zero] at hval
  have h45 : (45 : Int) ∈ P.map charOfByte ↔ (45 : Byte) ∈ P := by
    constructor
    · intro hc
      obtain ⟨b, hb, hb45⟩ := List.mem_map.mp hc
      rw [(charOfByte_eq_minus b).mp hb45] at hb
      exact hb
    · intro hm
      exact List.mem_map.mpr ⟨45, hm, by decide⟩
  have hp1 : r.pending = P.map charOfByte
      ++ charOfByte d :: (D1.map charOfByte ++ R.map charOfByte) := by
    rw [hp]
    simp
  obtain ⟨r1, e, ok1, p1⟩ := read_number_spec _ (charOfByte d) (D1.map charOfByte)
    (R.map charOfByte) fuel r hok hp1
    (by
      intro c hc
      obtain ⟨b, hb, rfl⟩ := List.mem_map.mp hc
      rw [isdigit_charOfByte]
      exact hP b hb)
    (by rw [isdigit_charOfByte]; exact hD d (List.mem_cons_self _ _))
    (by
      intro c hc
      obtain ⟨b, hb, rfl⟩ := List.mem_map.mp hc
      rw [isdigit_charOfByte]
      exact hD b (List.mem_cons_of_mem _ hb))
    (by
      intro c R1 hc
      cases R with
      | nil => simp at hc
      | cons b R2 =>
        simp only [List.map_cons, List.cons.injEq] at hc
        rw [← hc.1, isdigit_charOfByte]
        exact hR b R2 rfl)
    (by
      simp only [List.length_append, List.length_map, List.length_cons] at hf ⊢
      omega)
  refine ⟨r1, ?_, ok1, by rw [p1, List.map_tail]⟩
  rw [e, hval]
  have hv1 : ((decimal_value (d :: D1) : Nat) : Int) < 2 ^ 63 := by exact_mod_cast hv
  by_cases hm : (45 : Byte) ∈ P
  · rw [if_pos (h45.mpr hm), if_pos hm, wrap64_of_range _ (by omega) (by omega)]
    simp
  · rw [if_neg (fun h => hm (h45.mp h)), if_neg hm, Int.mul_one,
      wrap64_of_range _ (by omega) hv1]

/-- C14 (as stated, refuted): on the inputs `x-5` and `+-5`, whose first skipped
byte is not `'-'`, `read_number` yields -5. -/
theorem read_number_minus_after_other_byte :
    (read_number 4 (Reader.fresh [120, 45, 53])).map Prod.fst = some (-5) ∧
    (read_number 4 (Reader.fresh [43, 45, 53])).map Prod.fst = some (-5) := by
  decide

/-- C14 (amended): every byte skipped before the first digit is checked for the
sign: on skipped non-digit bytes `P`, a non-empty run of digits of value `v`
that fits `int64_t`, and a rest that is empty or starts with a non-digit,
`read_number` returns `-v` when `'-'` occurs anywhere in `P`, and `v` when it
occurs nowhere in `P`. -/
theorem read_number_sign_of_any_skipped_minus (P D R : List Byte) (fuel : Nat)
    (hP : ∀ b ∈ P, isDigitByte b = false)
    (hne : D ≠ [])
    (hD : ∀ b ∈ D, isDigitByte b = true)
    (hv : decimal_value D < 2 ^ 63)
    (hR : ∀ b R1, R = b :: R1 → isDigitByte b = false)
    (hf : (P ++ D ++ R).length < fuel) :
    ∃ r1, read_number fuel (Reader.fresh (P ++ D ++ R))
        = some ((if (45 : Byte) ∈ P then -(decimal_value D : Int)
            else (decimal_value D : Int)), r1) := by
  obtain ⟨r1, e, _, _⟩ := read_number_bytes_sign P D R fuel _ (fresh_ok _)
    (fresh_pending _) hP hne hD hv hR hf
  exact ⟨r1, e⟩

set_option maxRecDepth 4000 in
theorem read_number_sign_of_any_skipped_minus_witness :
    (∀ b ∈ ([120, 45, 32] : List Byte), isDigitByte b = false) ∧
    (([53] : List Byte) ≠ []) ∧
    (∀ b ∈ ([53] : List Byte), isDigitByte b = true) ∧
    decimal_value [53] < 2 ^ 63 ∧
    ∃ r1, read_number 6 (Reader.fresh ([120, 45, 32] ++ [53] ++ [10]))
        = some ((if (45 : Byte) ∈ ([120, 45, 32] : List Byte) then -(decimal_value [53] : Int)
            else (decimal_value [53] : Int)), r1) :=
  ⟨by decide, by decide, by decide, by decide,
    read_number_sign_of_any_skipped_minus [120, 45, 32] [53] [10] 6 (by decide) (by decide)
      (by decide) (by decide) (by intro b R1 h; cases h; decide) (by decide)⟩

/-- C18: `read_number` consumes the digit run and exactly the one byte `b` after
it, and does not look at `b` for a sign: on skipped bytes, digits of value
`v1`, a non-digit byte `b` (a `'-'` included), then skipped bytes without
`'-'`, an optional `'-'`, digits of value `v2` and a rest, the first call
yields `v1` with its sign and leaves everything after `b` unread, and the
second call yields `v2` with the sign of its own `'-'` only. -/
theorem read_number_discards_byte_after_digits
    (P1 D1 P2 D2 R2 : List Byte) (m1 m2 : Bool) (b : Byte) (fuel : Nat)
    (hP1 : ∀ x ∈ P1, isDigitByte x = false ∧ x ≠ 45)
    (hne1 : D1 ≠ []) (hD1 : ∀ x ∈ D1, isDigitByte x = true)
    (hv1 : decimal_value D1 < 2 ^ 63)
    (hb : isDigitByte b = false)
    (hP2 : ∀ x ∈ P2, isDigitByte x = false ∧ x ≠ 45)
    (hne2 : D2 ≠ []) (hD2 : ∀ x ∈ D2, isDigitByte x = true)
    (hv2 : decimal_value D2 < 2 ^ 63)
    (hR2 : ∀ x R, R2 = x :: R → isDigitByte x = false)
    (hf : (P1 ++ (if m1 then [45] else []) ++ D1
            ++ b :: (P2 ++ (if m2 then [45] else []) ++ D2 ++ R2)).length < fuel) :
    ∃ r1 r2,
      read_number fuel (Reader.fresh (P1 ++ (if m1 then [45] else []) ++ D1
          ++ b :: (P2 ++ (if m2 then [45] else []) ++ D2 ++ R2)))
        = some ((if m1 then -(decimal_value D1 : Int) else (decimal_value D1 : Int)), r1) ∧
      r1.pending = (P2 ++ (if m2 then [45] else []) ++ D2 ++ R2).map charOfByte ∧
      read_number fuel r1
        = some ((if m2 then -(decimal_value D2 : Int) else (decimal_value D2 : Int)), r2) := by
  obtain ⟨r1, e1, ok1, p1⟩ := read_number_bytes P1 D1
    (b :: (P2 ++ (if m2 then [45] else []) ++ D2 ++ R2)) m1 fuel _ (fresh_ok _)
    (fresh_pending _) hP1 hne1 hD1 hv1
    (by intro x R hx; cases hx; exact hb) hf
  rw [List.tail_cons] at p1
  obtain ⟨r2, e2, _, _⟩ := read_number_bytes P2 D2 R2 m2 fuel r1 ok1 p1 hP2 hne2 hD2 hv2 hR2
    (by
      simp only [List.length_append, List.length_cons] at hf ⊢
      omega)
  exact ⟨r1, r2, e1, p1, e2⟩

set_option maxRecDepth 4000 in
theorem read_number_discards_byte_after_digits_witness :
    (∀ x ∈ ([] : List Byte), isDigitByte x = false ∧ x ≠ 45) ∧
    (([51] : List Byte) ≠ []) ∧ (∀ x ∈ ([51] : List Byte), isDigitByte x = true) ∧
    decimal_value [51] < 2 ^ 63 ∧ isDigitByte 45 = false ∧
    (([53] : List Byte) ≠ []) ∧ (∀ x ∈ ([53] : List Byte), isDigitByte x = true) ∧
    decimal_value [53] < 2 ^ 63 ∧
    ∃ r1 r2,
      read_number 4 (Reader.fresh ([] ++ (if false then [45] else []) ++ [51]
          ++ 45 :: ([] ++ (if false then [45] else []) ++ [53] ++ [])))
        = some ((if false then -(decimal_value [51] : Int) else (decimal_value [51] : Int)), r1) ∧
      r1.pending = (([] : List Byte) ++ (if false then [45] else []) ++ [53] ++ []).map charOfByte ∧
      read_number 4 r1
        = some ((if false then -(decimal_value [53] : Int) else (decimal_value [53] : Int)), r2) :=
  ⟨by decide, by decide, by decide, by decide, by decide, by decide, by decide, by decide,
    read_number_discards_byte_after_digits [] [51] [] [53] [] false false 45 4
      (by decide) (by decide) (by decide) (by decide) (by decide) (by decide) (by decide)
      (by decide) (by decide) (by intro x R h; cases h) (by decide)⟩

/-! ### Tokens: what ends them, what is left, and the blank input -/

/-- The reader over pending bytes of the shape spaces, token, rest, where only
the first byte of the rest matters: it is an `isspace` byte or `0xFF`. -/
theorem read_string_bytes_head (W1 T R : List Byte) (fuel : Nat) (s : List Int) (r : Reader)
    (hok : r.Ok) (hp : r.pending = (W1 ++ T ++ R).map charOfByte)
    (hW1 : ∀ b ∈ W1, isSpaceByte b = true)
    (hne : T ≠ [])
    (hT : ∀ b ∈ T, isSpaceByte b = false)
    (hT255 : ∀ b ∈ T.tail, b ≠ 255)
    (hR : ∀ b R1, R = b :: R1 → isSpaceByte b = true ∨ b = 255)
    (hf1 : W1.length < fuel) (hf2 : T.length ≤ fuel) :
    ∃ r1, read_string fuel s r = some (s ++ T.map charOfByte, r1) ∧
      r1.Ok ∧ r1.pending = R.tail.map charOfByte := by
  obtain ⟨t, T1, rfl⟩ := List.exists_cons_of_ne_nil hne
  have hp1 : r.pending = W1.map charOfByte
      ++ charOfByte t :: (T1.map charOfByte ++ R.map charOfByte) := by
    rw [hp]
    simp
  obtain ⟨r1, e1, ok1, p1⟩ := read_string_skip_spec _ (charOfByte t) _ fuel r hok hp1
    (by
      intro x hx
      obtain ⟨b, hb, rfl⟩ := List.mem_map.mp hx
      rw [isspace_charOfByte]
      exact hW1 b hb)
    (by rw [isspace_charOfByte]; exact hT t (List.mem_cons_self _ _))
    (by rw [List.length_map]; exact hf1)
  obtain ⟨r2, e2, ok2, p2⟩ := read_string_take_spec (T1.map charOfByte) (R.map charOfByte)
    fuel s (charOfByte t) r1 ok1 p1
    (by
      intro x hx
      obtain ⟨b, hb, rfl⟩ := List.mem_map.mp hx
      rw [isspace_charOfByte]
      refine ⟨hT b (List.mem_cons_of_mem _ hb), ?_⟩
      intro h
      exact hT255 b hb ((charOfByte_eq_EOF b).mp h))
    (by
      intro x R1 hx
      cases R with
      | nil => simp at hx
      | cons b R2 =>
        simp only [List.map_cons, List.cons.injEq] at hx
        rw [← hx.1, isspace_charOfByte, charOfByte_eq_EOF]
        exact hR b R2 rfl)
    (by
      simp only [List.length_map, List.length_cons] at hf2 ⊢
      omega)
  refine ⟨r2, ?_, ok2, by rw [p2, List.map_tail]⟩
  simp [read_string, e1, e2]

/-- The character that the next `read_char` returns, from the pending bytes. -/
theorem read_char_of_pending_bytes (r : Reader) (L : List Byte) (hok : r.Ok)
    (hp : r.pending = L.map charOfByte) :
    (read_char r).1 = (L.head?.map charOfByte).getD EOF := by
  cases L with
  | nil => exact (read_char_nil r hok hp).1
  | cons b L1 => exact (read_char_cons r (charOfByte b) (L1.map charOfByte) hok hp).1

/-- C16 (as stated, refuted): on the input space, `a`, `b`, space, space, the
`read_char` that follows `read_string` returns the second trailing space, not
`EOF`: one byte of the trailing whitespace is left unread. -/
theorem read_string_leaves_trailing_whitespace :
    (read_string 6 [] (Reader.fresh [32, 97, 98, 32, 32])).map
        (fun p => (p.1, (read_char p.2).1)) = some ([97, 98], 32) ∧
    (32 : Int) ≠ EOF := by
  decide

/-- C16 (amended): after `read_string` on a run `W1` of `isspace` bytes, a
non-empty run `T` of bytes that are not `isspace` bytes, none after the first
being `0xFF`, and a non-empty run `W2` of `isspace` bytes, all of `W1` and `T`
and exactly the first byte of `W2` are consumed: what is left to read is `W2`
without its first byte, and the next `read_char` returns the second byte of
`W2`, or `EOF` when `W2` has one byte only. -/
theorem read_string_consumes_one_delimiter (W1 T W2 : List Byte) (fuel : Nat)
    (hW1 : ∀ b ∈ W1, isSpaceByte b = true)
    (hne : T ≠ [])
    (hT : ∀ b ∈ T, isSpaceByte b = false)
    (hT255 : ∀ b ∈ T.tail, b ≠ 255)
    (_hne2 : W2 ≠ [])
    (hW2 : ∀ b ∈ W2, isSpaceByte b = true)
    (hf : (W1 ++ T ++ W2).length < fuel) :
    ∃ r1, read_string fuel [] (Reader.fresh (W1 ++ T ++ W2)) = some (T.map charOfByte, r1) ∧
      r1.pending = W2.tail.map charOfByte ∧
      (read_char r1).1 = (W2.tail.head?.map charOfByte).getD EOF := by
  obtain ⟨r1, e, ok1, p1⟩ := read_string_bytes W1 T W2 fuel [] _ (fresh_ok _)
    (fresh_pending _) hW1 hne hT hT255 hW2
    (by simp only [List.length_append] at hf; omega)
    (by simp only [List.length_append] at hf; omega)
  exact ⟨r1, by simpa using e, p1, read_char_of_pending_bytes r1 _ ok1 p1⟩

set_option maxRecDepth 4000 in
theorem read_string_consumes_one_delimiter_witness :
    (∀ b ∈ ([32] : List Byte), isSpaceByte b = true) ∧
    (([97, 98] : List Byte) ≠ []) ∧
    (∀ b ∈ ([97, 98] : List Byte), isSpaceByte b = false) ∧
    (∀ b ∈ ([97, 98] : List Byte).tail, b ≠ 255) ∧
    (([32, 10] : List Byte) ≠ []) ∧
    (∀ b ∈ ([32, 10] : List Byte), isSpaceByte b = true) ∧
    ∃ r1, read_string 6 [] (Reader.fresh ([32] ++ [97, 98] ++ [32, 10]))
        = some (([97, 98] : List Byte).map charOfByte, r1) ∧
      r1.pending = ([32, 10] : List Byte).tail.map charOfByte ∧
      (read_char r1).1 = ((([32, 10] : List Byte).tail.head?).map charOfByte).getD EOF :=
  ⟨by decide, by decide, by decide, by decide, by decide, by decide,
    read_string_consumes_one_delimiter [32] [97, 98] [32, 10] 6 (by decide) (by decide)
      (by decide) (by decide) (by decide) (by decide) (by decide)⟩

theorem read_string_skip_blank (W : List Int) :
    ∀ (fuel : Nat) (r : Reader), r.Ok → r.pending = W →
      (∀ x ∈ W, isspace x = true) → W.length < fuel →
      ∃ r1, read_string_skip fuel r = some (EOF, r1) ∧ r1.Ok ∧ r1.pending = [] := by
  induction W with
  | nil =>
    intro fuel r hok hp _ hf
    obtain ⟨f, rfl⟩ : ∃ f, fuel = f + 1 := ⟨fuel - 1, by simp at hf; omega⟩
    obtain ⟨h1, h2, h3⟩ := read_char_nil r hok hp
    refine ⟨(read_char r).2, ?_, h2, h3⟩
    have : isspace EOF = false := by decide
    simp only [read_string_skip, h1, this, Bool.false_eq_true, if_false]
    rw [← h1]
  | cons x W ih =>
    intro fuel r hok hp hW hf
    obtain ⟨f, rfl⟩ : ∃ f, fuel = f + 1 := ⟨fuel - 1, by simp at hf; omega⟩
    obtain ⟨h1, h2, h3⟩ := read_char_cons r x W hok hp
    have hx : isspace x = true := hW x (List.mem_cons_self _ _)
    obtain ⟨r1, e, ok1, p1⟩ := ih f (read_char r).2 h2 h3
      (fun y hy => hW y (List.mem_cons_of_mem _ hy))
      (by simp only [List.length_cons] at hf; omega)
    refine ⟨r1, ?_, ok1, p1⟩
    simp only [read_string_skip, h1, hx, if_true, e]

theorem read_string_take_appends :
    ∀ (fuel : Nat) (s : List Int) (c : Int) (r : Reader) (t : List Int) (r1 : Reader),
      read_string_take fuel s c r = some (t, r1) → ∃ u, t = s ++ c :: u := by
  intro fuel
  induction fuel with
  | zero => intro s c r t r1 h; simp [read_string_take] at h
  | succ f ih =>
    intro s c r t r1 h
    rw [read_string_take] at h
    split at h
    · obtain ⟨u, hu⟩ := ih _ _ _ _ _ h
      exact ⟨(read_char r).1 :: u, by rw [hu]; simp⟩
    · simp only [Option.some.injEq, Prod.mk.injEq] at h
      exact ⟨[], by rw [← h.1]⟩

/-- C19: on an input of `isspace` bytes only, the empty input included,
`read_string` with an empty destination returns, and the token is the single
`char` `EOF`, which is the byte `0xFF`; and whenever `read_string` returns, it
has appended at least one `char` to the destination. -/
theorem read_string_blank_input_yields_sentinel (W : List Byte) (fuel : Nat)
    (hW : ∀ b ∈ W, isSpaceByte b = true) (hf : W.length < fuel) :
    (∃ r1, read_string fuel [] (Reader.fresh W) = some ([EOF], r1)) ∧
    ([EOF].map byteOfChar = [255]) ∧
    (∀ (fuel1 : Nat) (s : List Int) (r : Reader) (t : List Int) (r1 : Reader),
      read_string fuel1 s r = some (t, r1) → ∃ c u, t = s ++ c :: u) := by
  refine ⟨?_, by decide, ?_⟩
  · obtain ⟨r1, e1, ok1, p1⟩ := read_string_skip_blank (W.map charOfByte) fuel _
      (fresh_ok W) (fresh_pending W)
      (by
        intro x hx
        obtain ⟨b, hb, rfl⟩ := List.mem_map.mp hx
        rw [isspace_charOfByte]
        exact hW b hb)
      (by rw [List.length_map]; exact hf)
    obtain ⟨r2, e2, _, _⟩ := read_string_take_spec [] [] fuel [] EOF r1 ok1 p1
      (by simp) (by simp) (by simp only [List.length_nil]; omega)
    exact ⟨r2, by simp [read_string, e1, e2]⟩
  · intro fuel1 s r t r1 h
    unfold read_string at h
    split at h
    · simp at h
    · rename_i c r0 _
      obtain ⟨u, hu⟩ := read_string_take_appends _ _ _ _ _ _ h
      exact ⟨c, u, hu⟩

set_option maxRecDepth 4000 in
theorem read_string_blank_input_yields_sentinel_witness :
    (∀ b ∈ ([32, 10] : List Byte), isSpaceByte b = true) ∧
    ([32, 10] : List Byte).length < 3 ∧
    (∃ r1, read_string 3 [] (Reader.fresh [32, 10]) = some ([EOF], r1)) :=
  ⟨by decide, by decide,
    (read_string_blank_input_yields_sentinel [32, 10] 3 (by decide) (by decide)).1⟩

/-! ### The bounds of the input buffer -/

theorem fread_length_le (count : Nat) (s : Source) : (fread count s).1.length ≤ count := by
  unfold fread
  split
  · simp
  · split
    · assumption
    · rw [List.length_take]
      omega

/-- The index named by `read_char_index` is the one `read_char` reads. -/
theorem read_char_reads_index (r : Reader) :
    (∀ i, read_char_index r = some i →
      (read_char r).1 = (read_char r).2.input_buffer i ∧
      (read_char r).2.input_position = i + 1) ∧
    (read_char_index r = none → (read_char r).1 = EOF) := by
  unfold read_char_index read_char
  by_cases h : r.input_position = r.input_length
  · by_cases h0 : (fread buffer_size r.stdin).1.length = 0
    · simp only [if_pos h, if_pos h0]
      exact ⟨fun i hi => (by cases hi), fun _ => (by decide)⟩
    · simp only [if_pos h, if_neg h0]
      refine ⟨fun i hi => ?_, fun hn => (by cases hn)⟩
      cases hi
      exact ⟨rfl, rfl⟩
  · simp only [if_neg h]
    refine ⟨fun i hi => ?_, fun hn => (by cases hn)⟩
    cases hi
    exact ⟨rfl, rfl⟩

theorem read_char_in_bounds (r : Reader) (h : r.InBounds) : (read_char r).2.InBounds := by
  obtain ⟨h1, h2⟩ := h
  have hl := fread_length_le buffer_size r.stdin
  unfold read_char Reader.InBounds
  by_cases he : r.input_position = r.input_length
  · by_cases h0 : (fread buffer_size r.stdin).1.length = 0
    · simp only [if_pos he, if_pos h0]
      omega
    · simp only [if_pos he, if_neg h0]
      omega
  · simp only [if_neg he]
    omega

theorem read_char_index_lt (r : Reader) (h : r.InBounds) (i : Nat)
    (hi : read_char_index r = some i) : i < buffer_size := by
  obtain ⟨h1, h2⟩ := h
  unfold read_char_index at hi
  by_cases he : r.input_position = r.input_length
  · rw [if_pos he] at hi
    split at hi
    · cases hi
    · cases hi
      exact buffer_size_pos
  · rw [if_neg he] at hi
    cases hi
    omega

theorem read_string_skip_preserves (I : Reader → Prop)
    (hI : ∀ r, I r → I (read_char r).2) :
    ∀ (fuel : Nat) (r : Reader) (c : Int) (r1 : Reader),
      I r → read_string_skip fuel r = some (c, r1) → I r1 := by
  intro fuel
  induction fuel with
  | zero => intro r c r1 _ h; simp [read_string_skip] at h
  | succ f ih =>
    intro r c r1 hr h
    rw [read_string_skip] at h
    split at h
    · exact ih _ _ _ (hI r hr) h
    · simp only [Option.some.injEq] at h
      have : r1 = (read_char r).2 := by rw [h]
      rw [this]
      exact hI r hr

theorem read_string_take_preserves (I : Reader → Prop)
    (hI : ∀ r, I r → I (read_char r).2) :
    ∀ (fuel : Nat) (s : List Int) (c : Int) (r : Reader) (t : List Int) (r1 : Reader),
      I r → read_string_take fuel s c r = some (t, r1) → I r1 := by
  intro fuel
  induction fuel with
  | zero => intro s c r t r1 _ h; simp [read_string_take] at h
  | succ f ih =>
    intro s c r t r1 hr h
    rw [read_string_take] at h
    split at h
    · exact ih _ _ _ _ _ (hI r hr) h
    · simp only [Option.some.injEq, Prod.mk.injEq] at h
      rw [← h.2]
      exact hI r hr

theorem read_string_preserves (I : Reader → Prop)
    (hI : ∀ r, I r → I (read_char r).2)
    (fuel : Nat) (s t : List Int) (r r1 : Reader)
    (hr : I r) (h : read_string fuel s r = some (t, r1)) : I r1 := by
  unfold read_string at h
  split at h
  · simp at h
  · rename_i c r0 hs
    exact read_string_take_preserves I hI _ _ _ _ _ _
      (read_string_skip_preserves I hI _ _ _ _ hr hs) h

theorem read_number_skip_preserves (I : Reader → Prop)
    (hI : ∀ r, I r → I (read_char r).2) :
    ∀ (fuel : Nat) (sign : Int) (r : Reader) (c sign1 : Int) (r1 : Reader),
      I r → read_number_skip fuel sign r = some (c, sign1, r1) → I r1 := by
  intro fuel
  induction fuel with
  | zero => intro sign r c sign1 r1 _ h; simp [read_number_skip] at h
  | succ f ih =>
    intro sign r c sign1 r1 hr h
    rw [read_number_skip] at h
    split at h
    · exact ih _ _ _ _ _ (hI r hr) h
    · simp only [Option.some.injEq, Prod.mk.injEq] at h
      rw [← h.2.2]
      exact hI r hr

theorem read_number_digits_preserves (I : Reader → Prop)
    (hI : ∀ r, I r → I (read_char r).2) :
    ∀ (fuel : Nat) (n : Int) (r : Reader) (n1 : Int) (r1 : Reader),
      I r → read_number_digits fuel n r = some (n1, r1) → I r1 := by
  intro fuel
  induction fuel with
  | zero => intro n r n1 r1 _ h; simp [read_number_digits] at h
  | succ f ih =>
    intro n r n1 r1 hr h
    rw [read_number_digits] at h
    split at h
    · exact ih _ _ _ _ (hI r hr) h
    · simp only [Option.some.injEq, Prod.mk.injEq] at h
      rw [← h.2]
      exact hI r hr

theorem read_number_preserves (I : Reader → Prop)
    (hI : ∀ r, I r → I (read_char r).2)
    (fuel : Nat) (n : Int) (r r1 : Reader)
    (hr : I r) (h : read_number fuel r = some (n, r1)) : I r1 := by
  unfold read_number at h
  split at h
  · simp at h
  · rename_i c sign r0 hs
    split at h
    · simp at h
    · rename_i n0 r2 hd
      simp only [Option.some.injEq, Prod.mk.injEq] at h
      rw [← h.2]
      exact read_number_digits_preserves I hI _ _ _ _ _
        (read_number_skip_preserves I hI _ _ _ _ _ _ hr hs) hd

theorem reachable_in_bounds (r : Reader) (h : Reader.Reachable r) : r.InBounds := by
  induction h with
  | start chunks => exact ⟨Nat.le_refl _, Nat.zero_le _⟩
  | after_read_char r _ ih => exact read_char_in_bounds r ih
  | after_read_string fuel s t r r1 _ hs ih =>
    exact read_string_preserves _ read_char_in_bounds fuel s t r r1 ih hs
  | after_read_number fuel n r r1 _ hs ih =>
    exact read_number_preserves _ read_char_in_bounds fuel n r r1 ih hs

/-! ### The whitespace of `read_string` -/

/-- C15 (as stated, refuted): a vertical tab or a form feed inside a run ends
the token, and a vertical tab before the token is skipped: on `a \v b` and on
`a \f b` followed by a space `read_string` returns `a`, and on `\v a` followed
by a space it returns `a`. -/
theorem read_string_treats_vt_ff_as_whitespace :
    (read_string 5 [] (Reader.fresh [97, 11, 98, 32])).map Prod.fst = some [97] ∧
    (read_string 5 [] (Reader.fresh [97, 12, 98, 32])).map Prod.fst = some [97] ∧
    (read_string 5 [] (Reader.fresh [11, 97, 32])).map Prod.fst = some [97] := by
  decide

/-- C15 (amended): the bytes `read_string` treats as whitespace are the six that
`isspace` accepts, space and `\t \n \v \f \r`: such a byte `b` is skipped before
a token and ends one, and every other byte `b` except `0xFF` is accumulated,
at the start of the token and inside it. -/
theorem read_string_whitespace_is_isspace (b : Byte) :
    (isSpaceByte b = true ↔ b.val = 32 ∨ (9 ≤ b.val ∧ b.val ≤ 13)) ∧
    (isSpaceByte b = true →
      ∃ r1, read_string 5 [] (Reader.fresh [b, 97, b, 98]) = some ([97], r1)) ∧
    (isSpaceByte b = false → b ≠ 255 →
      ∃ r1, read_string 5 [] (Reader.fresh [b, 97, b, 98, 32])
        = some ([charOfByte b, 97, charOfByte b, 98], r1)) := by
  refine ⟨by simp [isSpaceByte], ?_, ?_⟩
  · intro hb
    obtain ⟨r1, e, _, _⟩ := read_string_bytes_head [b] [97] [b, 98] 5 []
      (Reader.fresh [b, 97, b, 98]) (fresh_ok _) (fresh_pending _)
      (by intro x hx; rw [List.mem_singleton.mp hx]; exact hb)
      (by simp) (by intro x hx; rw [List.mem_singleton.mp hx]; decide)
      (by intro x hx; simp at hx)
      (by intro x R1 hx; cases hx; exact Or.inl hb)
      (by simp) (by simp)
    exact ⟨r1, e⟩
  · intro hb h255
    have h97 : isSpaceByte 97 = false := by decide
    have h98 : isSpaceByte 98 = false := by decide
    obtain ⟨r1, e, _, _⟩ := read_string_bytes_head [] [b, 97, b, 98] [32] 5 []
      (Reader.fresh [b, 97, b, 98, 32]) (fresh_ok _) (fresh_pending _)
      (by intro x hx; simp at hx)
      (by simp)
      (by
        intro x hx
        simp only [List.mem_cons, List.mem_singleton, List.not_mem_nil, or_false] at hx
        rcases hx with h | h | h | h <;> rw [h] <;> assumption)
      (by
        intro x hx
        simp only [List.tail_cons, List.mem_cons, List.mem_singleton, List.not_mem_nil,
          or_false] at hx
        rcases hx with h | h | h <;> rw [h]
        · decide
        · exact h255
        · decide)
      (by intro x R1 hx; cases hx; exact Or.inl (by decide))
      (by simp) (by simp)
    exact ⟨r1, e⟩

end fast_input

/-! ## Writing a number and reading it back -/

open fast_input fast_output

theorem byteOfChar_digit_val (a : Nat) (h : a < 10) :
    (byteOfChar (48 + (a : Int))).val = 48 + a := by
  unfold byteOfChar
  simp only
  omega

theorem decimal_value_reverse (L : List Nat) (hL : ∀ d ∈ L, d < 10) :
    decimal_value (L.reverse.map (fun (d : Nat) => byteOfChar (48 + (d : Int))))
      = Nat.ofDigits 10 L := by
  induction L with
  | nil => rfl
  | cons a L ih =>
    have ha := byteOfChar_digit_val a (hL a (List.mem_cons_self _ _))
    have ih1 := ih (fun d hd => hL d (List.mem_cons_of_mem _ hd))
    unfold decimal_value at ih1 ⊢
    rw [List.reverse_cons, List.map_append, List.foldl_append, ih1, Nat.ofDigits_cons]
    simp only [List.map_cons, List.map_nil, List.foldl_cons, List.foldl_nil]
    rw [ha]
    omega

theorem decimal_lt_ten (m : Nat) : ∀ d ∈ decimal m, d < 10 := by
  intro d hd
  unfold decimal at hd
  split at hd
  · simp only [List.mem_singleton] at hd
    omega
  · exact Nat.digits_lt_base (by norm_num) (List.mem_reverse.mp hd)

theorem decimal_ne_nil (m : Nat) : decimal m ≠ [] := by
  unfold decimal
  split
  · simp
  · rename_i h
    simpa [Nat.digits_eq_nil_iff_eq_zero] using h

theorem decimal_value_decimal (m : Nat) :
    decimal_value ((decimal m).map (fun (d : Nat) => byteOfChar (48 + (d : Int)))) = m := by
  by_cases h : m = 0
  · subst h
    decide
  · have := decimal_value_reverse (Nat.digits 10 m)
      (fun d hd => Nat.digits_lt_base (by norm_num) hd)
    rw [Nat.ofDigits_digits] at this
    simpa [decimal, h] using this

/-- The bytes that `print_number n '\0'` emits, in the shape `read_number` parses. -/
theorem number_chars_bytes (n : Int) :
    (number_chars n 0).map byteOfChar
      = [] ++ (if decide (n < 0) then [45] else [])
          ++ (decimal n.natAbs).map (fun (d : Nat) => byteOfChar (48 + (d : Int))) ++ [] := by
  unfold number_chars
  by_cases h : n < 0
  · simp [h, Function.comp_def]
    decide
  · simp [h, Function.comp_def]

/-- C1: for every `n` with `-(2^63-1) ≤ n ≤ 2^63-1`, `print_number n` without
terminator from an empty buffer and sink, then `flush`, then `read_number` on a
fresh reader over the bytes the sink received, yields `n`. -/
theorem print_number_read_number_round_trip (n : Int) (w : Writer) (fuel : Nat)
    (hlo : -(2 ^ 63 - 1) ≤ n) (hhi : n ≤ 2 ^ 63 - 1)
    (hpos : w.output_position = 0) (hsink : w.stdout = [])
    (hf : (flush (print_number n 0 w)).stdout.flatten.length < fuel) :
    ∃ r1, read_number fuel (Reader.fresh (flush (print_number n 0 w)).stdout.flatten)
      = some (n, r1) := by
  obtain ⟨nb, hnb⟩ := print_number_exists n 0 w (by omega)
  have hbytes : (flush (print_number n 0 w)).stdout.flatten
      = [] ++ (if decide (n < 0) then [45] else [])
          ++ (decimal n.natAbs).map (fun (d : Nat) => byteOfChar (48 + (d : Int))) ++ [] := by
    rw [hnb, ← number_chars_bytes]
    show (flush (print_string (number_chars n 0) w)).stdout.flatten = _
    rw [flush_stdout_join, emitted_print_string]
    simp [Writer.emitted, Writer.buffered, hpos, hsink]
  rw [hbytes] at hf ⊢
  have hD : ∀ b ∈ (decimal n.natAbs).map (fun (d : Nat) => byteOfChar (48 + (d : Int))),
      isDigitByte b = true := by
    intro b hb
    obtain ⟨d, hd, rfl⟩ := List.mem_map.mp hb
    have := byteOfChar_digit_val d (decimal_lt_ten _ d hd)
    have hd10 := decimal_lt_ten _ d hd
    simp only [isDigitByte, Bool.and_eq_true, decide_eq_true_eq]
    omega
  obtain ⟨r1, e, _, _⟩ := read_number_bytes [] _ [] (decide (n < 0)) fuel _
    (fresh_ok _) (fresh_pending _)
    (by simp) (by simpa using decimal_ne_nil n.natAbs) hD
    (by rw [decimal_value_decimal]; omega) (by simp) hf
  refine ⟨r1, ?_⟩
  rw [e, decimal_value_decimal]
  by_cases h : n < 0
  · simp only [h, decide_True, if_true]
    congr 2
    omega
  · simp only [h, decide_False, Bool.false_eq_true, if_false]
    congr 2
    omega

theorem print_number_read_number_round_trip_witness :
    (-(2 ^ 63 - 1) ≤ (-9223372036854775807 : Int)) ∧
    ((-9223372036854775807 : Int) ≤ 2 ^ 63 - 1) ∧
    Writer.fresh.output_position = 0 ∧ Writer.fresh.stdout = [] ∧
    ∃ r1, read_number
        ((flush (print_number (-9223372036854775807) 0 Writer.fresh)).stdout.flatten.length + 1)
        (Reader.fresh (flush (print_number (-9223372036854775807) 0 Writer.fresh)).stdout.flatten)
      = some (-9223372036854775807, r1) :=
  ⟨by decide, by decide, rfl, rfl,
    print_number_read_number_round_trip (-9223372036854775807) Writer.fresh _
      (by decide) (by decide) rfl rfl (Nat.lt_add_one _)⟩

/-! ## The bounds of both buffers -/

/-- C12: in every state reached from the start by the operations of the reader
(over any source: a bulk read obtains between 0 and `buffer_size` bytes) and of
the writer, `input_position ≤ input_length ≤ buffer_size` and
`output_position ≤ buffer_size` hold, and the index that the next `read_char`
reads in `input_buffer`, or the next `print_char` stores to in `output_buffer`,
is below `buffer_size`. -/
theorem buffer_bounds_hold_in_every_reachable_state :
    (∀ r : Reader, Reader.Reachable r →
      0 ≤ r.input_position ∧ r.input_position ≤ r.input_length ∧
      r.input_length ≤ fast_input.buffer_size ∧
      (fread fast_input.buffer_size r.stdin).1.length ≤ fast_input.buffer_size ∧
      ∀ i, read_char_index r = some i → 0 ≤ i ∧ i < fast_input.buffer_size) ∧
    (∀ w : Writer, Writer.Reachable w →
      0 ≤ w.output_position ∧ w.output_position ≤ fast_output.buffer_size ∧
      0 ≤ print_char_index w ∧ print_char_index w < fast_output.buffer_size) := by
  constructor
  · intro r hr
    have hb := reachable_in_bounds r hr
    exact ⟨Nat.zero_le _, hb.1, hb.2, fread_length_le _ _,
      fun i hi => ⟨Nat.zero_le _, read_char_index_lt r hb i hi⟩⟩
  · intro w hw
    have hb := writer_reachable_in_bounds w hw
    exact ⟨Nat.zero_le _, hb, Nat.zero_le _, print_char_index_lt w hb⟩
